import Mathlib

/-!
Verification development for the `maze_runner` repository
(`maze_runner.py`): a shallow embedding of the maze generator
(`make_maze`), the serializer (`array_to_string_maze`,
`string_to_array_maze`) and the solver (`solve`), together with theorems
settling the specification's claims.

Modelling conventions:
* Python strings are modelled as `List Char`.
* The numpy matrix of cell codes is modelled as `Mat`: explicit
  dimensions plus a total data function `ℕ → ℕ → ℕ`.  The cell codes in
  the source are the floats 0.0, 1.0, 2.0, 3.0, 5.0, 6.0, 7.0; all
  arithmetic on them is exact on such small integers, so they are
  embedded as naturals.
* `random.shuffle`, `random.randrange` and the arbitrary order of
  `set.pop` are nondeterministic; they are modelled by explicit oracle
  parameters ranging over all possible outcomes.
* Fallible operations (index errors) return `Option`/`Except` or enter
  an explicit error outcome.
* Python list indexing with a negative index `-n ≤ i < 0` wraps to
  `len + i`; an index outside `[-n, n)` raises.  `pyIdx` models this.
* The display and progress side effects of `solve` (`print`, `sleep`,
  `tqdm`) are I/O and are omitted; the embedding models the algorithm
  at the default verbosity 0, where they do not touch the grid.
-/

namespace MazeRunner

/-- Cell states of the maze, in the order of the `codes` table of the
source (`c_path`, `c_wall`, `c_start`, `c_end`, `c_visited`,
`c_finalpath`, `c_current`). -/
inductive Cell : Type where
  | path
  | wall
  | start
  | stop
  | visited
  | finalpath
  | current
deriving DecidableEq, Repr, Fintype

/-- Numeric code of a cell state: first component of the tuples
`c_path = (0.0, ...)`, ..., `c_current = (7.0, ...)`. -/
def Cell.val : Cell → ℕ
  | .path => 0
  | .wall => 1
  | .start => 2
  | .stop => 3
  | .visited => 5
  | .finalpath => 6
  | .current => 7

/-- Display character of a cell state: second component of the tuples
in the source. -/
def Cell.char : Cell → Char
  | .path => ' '
  | .wall => '#'
  | .start => '&'
  | .stop => '!'
  | .visited => '.'
  | .finalpath => '*'
  | .current => '@'

/-- RGB colour of a cell state: third component of the tuples in the
source (`c_end` and `c_current` both carry `[0, 255, 255]` there). -/
def Cell.color : Cell → List ℕ
  | .path => [255, 255, 255]
  | .wall => [0, 0, 0]
  | .start => [0, 255, 0]
  | .stop => [0, 255, 255]
  | .visited => [255, 0, 0]
  | .finalpath => [255, 255, 0]
  | .current => [0, 255, 255]

/-- The seven cell states in the order of the source's `codes` list. -/
def cellList : List Cell :=
  [.path, .wall, .start, .stop, .visited, .finalpath, .current]

/-- The `codes` lookup table of the source: for each cell state its
numeric code, display character and RGB colour. -/
def codes : List (ℕ × Char × List ℕ) :=
  cellList.map fun s => (s.val, s.char, s.color)

/-- Matrix of numeric cell codes: explicit dimensions with a total data
function (out-of-range entries are irrelevant; in-range access is what
the algorithms use). -/
structure Mat : Type where
  rows : ℕ
  cols : ℕ
  data : ℕ → ℕ → ℕ

/-- Pointwise update `mat[y, x] = v` at in-range natural coordinates. -/
def Mat.upd (m : Mat) (y x v : ℕ) : Mat :=
  { m with data := fun y' x' => if y' = y then if x' = x then v else m.data y' x' else m.data y' x' }

/-- Character the serializer emits for a numeric code: the first entry
of `codes` whose code matches (`for code in codes: if c == code[0]: ...
break`); `none` when no entry matches, in which case the source emits
no character at all for that cell. -/
def charOfVal (v : ℕ) : Option Char :=
  (codes.find? fun c => c.1 = v).map fun c => c.2.1

/-- Numeric code the parser assigns to a character: the entry of
`codes` whose character matches; `none` leaves the zero-initialised
entry untouched. -/
def valOfChar (c : Char) : Option ℕ :=
  (codes.find? fun e => e.2.1 = c).map fun e => e.1

/-- Characters of one matrix row, `array_to_string_maze`'s inner loop:
cells whose code matches no entry of `codes` contribute no character. -/
def rowChars (m : Mat) (y : ℕ) : List Char :=
  (List.range m.cols).filterMap fun x => charOfVal (m.data y x)

/-- The source's `array_to_string_maze`: rows of characters, each row
followed by a line break (also the last one). -/
def array_to_string_maze (m : Mat) : List Char :=
  ((List.range m.rows).map fun y => rowChars m y ++ ['\n']).flatten

/-- One parser write: `mat[y, x] = code[0]` when character `c` matches
an entry of `codes`; out-of-range writes raise (Python `IndexError`),
modelled by `none`.  Characters matching no entry write nothing. -/
def parsePutChar (m : Mat) (y x : ℕ) (c : Char) : Option Mat :=
  match valOfChar c with
  | none => some m
  | some v => if y < m.rows ∧ x < m.cols then some (m.upd y x v) else none

/-- Parser writes for one line of the input. -/
def parsePutLine (m : Mat) (y : ℕ) (line : List Char) : Option Mat :=
  line.enum.foldlM (fun acc p => parsePutChar acc y p.1 p.2) m

/-- The source's `string_to_array_maze`: split on line breaks, allocate
a zero matrix of shape `(number of lines) × (length of the first
line)`, then write the code of every recognised character. -/
def string_to_array_maze (s : List Char) : Option Mat :=
  let lines := s.splitOn '\n'
  let m0 : Mat := ⟨lines.length, (lines.headD []).length, fun _ _ => 0⟩
  lines.enum.foldlM (fun acc p => parsePutLine acc p.1 p.2) m0

/-- Rows of a maze string as a textual grid: the maze strings produced
by the program end in a line break, so the final empty piece of the
split is not a row. -/
def mazeLines (s : List Char) : List (List Char) :=
  (s.splitOn '\n').dropLast

/-- Values held by the `visiting` list of `make_maze`.  The source
extends the list with `visiting += current`, which flattens the
coordinate tuple into its two integer components, so the list holds
integers while the membership test `n not in visiting` compares a
tuple against them.  Both kinds of Python value are embedded so that
the comparison is the honest one the source performs. -/
inductive PyVal : Type where
  | int (n : ℕ)
  | pair (p : ℕ × ℕ)
deriving DecidableEq, Repr

/-- State of the carving loop of `make_maze`: the working grid, the
`unvisited` set (as a list in insertion order; `set.pop` removes an
arbitrary element, chosen here by an oracle index) and the `visiting`
list of flattened scalars. -/
structure GenState : Type where
  mat : Mat
  unvisited : List (ℕ × ℕ)
  visiting : List PyVal

/-- Candidate neighbour rooms of `current`, in source order
`[(y-2, x), (y+2, x), (x-2 and x+2 likewise)]`.  Natural subtraction
truncates where Python would produce a negative coordinate; both the
truncated and the negative pair lie outside the room lattice of
odd/odd coordinates, so the membership filter treats them alike. -/
def genNeighbors (cur : ℕ × ℕ) : List (ℕ × ℕ) :=
  [(cur.1 - 2, cur.2), (cur.1 + 2, cur.2), (cur.1, cur.2 - 2), (cur.1, cur.2 + 2)]

/-- One iteration of the carving loop: pop an arbitrary unvisited room
(`popO` chooses which), filter its neighbours through the `unvisited`
membership test and the (vacuous) `visiting` membership test, and if
any remain pick one (`chooseO` stands for `shuffle` followed by taking
the head) and knock out the wall cell between the two rooms; otherwise
pop one scalar off `visiting` when it is nonempty. -/
def genStep (popO chooseO : ℕ) (s : GenState) : GenState :=
  let i := popO % s.unvisited.length
  let current := s.unvisited.getD i (0, 0)
  let unvisited' := s.unvisited.eraseIdx i
  let nbrs := (genNeighbors current).filter fun n =>
    n ∈ unvisited' ∧ PyVal.pair n ∉ s.visiting
  if nbrs.length ≠ 0 then
    let visiting' := s.visiting ++ [PyVal.int current.1, PyVal.int current.2]
    let chosen := nbrs.getD (chooseO % nbrs.length) (0, 0)
    let mat' :=
      if chosen.1 + 2 = current.1 then s.mat.upd (current.1 - 1) current.2 1
      else if chosen.1 = current.1 + 2 then s.mat.upd (current.1 + 1) current.2 1
      else if chosen.2 + 2 = current.2 then s.mat.upd current.1 (current.2 - 1) 1
      else if chosen.2 = current.2 + 2 then s.mat.upd current.1 (current.2 + 1) 1
      else s.mat
    ⟨mat', unvisited', visiting'⟩
  else if s.visiting.length ≠ 0 then ⟨s.mat, unvisited', s.visiting.dropLast⟩
  else ⟨s.mat, unvisited', s.visiting⟩

/-- The carving loop `while unvisited:`; each iteration removes exactly
one room from `unvisited`, so the initial number of rooms is exact
fuel.  `k` counts iterations for the oracles. -/
def genLoop (popO chooseO : ℕ → ℕ) : ℕ → ℕ → GenState → GenState
  | _, 0, s => s
  | k, fuel + 1, s =>
      if s.unvisited.length = 0 then s
      else genLoop popO chooseO (k + 1) fuel (genStep (popO k) (chooseO k) s)

/-- Odd indices below `n`, the room coordinates along one axis. -/
def odds (n : ℕ) : List ℕ :=
  (List.range n).filter fun i => i % 2 ≠ 0

/-- Room coordinates in the source's insertion order: outer loop over
odd columns, inner loop over odd rows, pairs stored as `(y, x)`. -/
def rooms (h w : ℕ) : List (ℕ × ℕ) :=
  (odds w).flatMap fun x => (odds h).map fun y => (y, x)

/-- Initial working grid: zeros of shape `h × w` with every odd/odd
room cell set to 1. -/
def genInitMat (h w : ℕ) : Mat :=
  (rooms h w).foldl (fun m p => m.upd p.1 p.2 1) ⟨h, w, fun _ _ => 0⟩

/-- Assignment `mat[:, x] = v`. -/
def Mat.setCol (m : Mat) (x v : ℕ) : Mat :=
  { m with data := fun y' x' => if x' = x then v else m.data y' x' }

/-- Assignment `mat[y, :] = v`. -/
def Mat.setRow (m : Mat) (y v : ℕ) : Mat :=
  { m with data := fun y' x' => if y' = y then v else m.data y' x' }

/-- Slice `mat[1:h-1, 1:w-1]` of an `h × w` matrix. -/
def Mat.trim (m : Mat) : Mat :=
  ⟨m.rows - 2, m.cols - 2, fun y x => m.data (y + 1) (x + 1)⟩

/-- The grid part of `make_maze w h`: work on the oversized
`(h+1) × (w+1)` grid, carve, force the border lines
`mat[:, 1]`, `mat[:, w-2]`, `mat[1, :]`, `mat[h-2, :]` to wall, and
trim one row and column off each side. -/
def makeMazeMat (w h : ℕ) (popO chooseO : ℕ → ℕ) : Mat :=
  let h' := h + 1
  let w' := w + 1
  let rs := rooms h' w'
  let final := genLoop popO chooseO 0 rs.length ⟨genInitMat h' w', rs, []⟩
  ((((final.mat.setCol 1 1).setCol (w' - 2) 1).setRow 1 1).setRow (h' - 2) 1).trim

/-- Indices of the space (Path) characters of a maze string, the
`spaces` list of `make_maze`. -/
def spacesIdx (s : List Char) : List ℕ :=
  (s.enum.filter fun p => p.2 = ' ').map fun p => p.1

/-- The source's `make_maze`: build the grid, serialize it, then
optionally stamp a random Path character with Start and another with
End.  `rand1`, `rand2` model the two `randrange` draws; `randrange(0)`
raises, modelled by `none`.  The guard `if start is not None or end is
not None` of the source is always true for boolean arguments. -/
def make_maze (w h : ℕ) (startQ endQ : Bool) (popO chooseO : ℕ → ℕ)
    (rand1 rand2 : ℕ) : Option (List Char) :=
  let maze := array_to_string_maze (makeMazeMat w h popO chooseO)
  let spaces := spacesIdx maze
  if startQ then
    if spaces.length = 0 then none
    else
      let i := rand1 % spaces.length
      let maze1 := maze.set (spaces.getD i 0) Cell.start.char
      let spaces1 := spaces.eraseIdx i
      if endQ then
        if spaces1.length = 0 then none
        else some (maze1.set (spaces1.getD (rand2 % spaces1.length) 0) Cell.stop.char)
      else some maze1
  else if endQ then
    if spaces.length = 0 then none
    else some (maze.set (spaces.getD (rand2 % spaces.length) 0) Cell.stop.char)
  else some maze

/-- Solver strategies, the three recognised tags of `solve`
(`'dfs'`, `'bfs'`, `'a*'`); passing anything else raises `ValueError`
before any work starts, which the embedding models by typing the
argument with this exact enumeration. -/
inductive Strat : Type where
  | dfs
  | bfs
  | astar
deriving DecidableEq, Repr

/-- Python/numpy single-axis index semantics: `0 ≤ i < n` is the index
itself, `-n ≤ i < 0` wraps to `n + i`, anything else raises. -/
def pyIdx (n : ℕ) (i : ℤ) : Option ℕ :=
  if 0 ≤ i ∧ i < (n : ℤ) then some i.toNat
  else if -(n : ℤ) ≤ i ∧ i < 0 then some (i + n).toNat
  else none

/-- Read `mat[y, x]` with Python index semantics. -/
def Mat.readPy (m : Mat) (p : ℤ × ℤ) : Option ℕ :=
  match pyIdx m.rows p.1, pyIdx m.cols p.2 with
  | some y, some x => some (m.data y x)
  | _, _ => none

/-- Write `mat[y, x] = v` with Python index semantics. -/
def Mat.writePy (m : Mat) (p : ℤ × ℤ) (v : ℕ) : Option Mat :=
  match pyIdx m.rows p.1, pyIdx m.cols p.2 with
  | some y, some x => some (m.upd y x v)
  | _, _ => none

/-- First cell holding the given code in row-major order:
`np.nonzero(mat == v)` followed by taking `[0][0]` and `[1][0]`, which
both come from the first hit; `none` models the `IndexError` the
source hits on the empty result. -/
def Mat.findVal (m : Mat) (v : ℕ) : Option (ℕ × ℕ) :=
  ((List.range m.rows).flatMap fun y =>
    (List.range m.cols).filterMap fun x =>
      if m.data y x = v then some (y, x) else none).head?

/-- State of the `solve` loop: the matrix, the frontier (`stack`), the
Start and End coordinates, the strategy, and the four counters.  The
display side effects of verbosity levels 1-3 are omitted; the
embedding is `solve` at the default verbosity 0. -/
structure SState : Type where
  mat : Mat
  stack : List (ℤ × ℤ)
  start : ℤ × ℤ
  stop : ℤ × ℤ
  strat : Strat
  step : ℕ
  explored : ℕ
  walked : ℕ
  maxDepth : ℕ

/-- How an execution of the solve loop ends. -/
inductive Outcome : Type where
  | reachedEnd
  | exhausted
  | oob
deriving DecidableEq, Repr

/-- Result of one step of the solve loop: continue running, or stop
with an outcome. -/
inductive StepRes : Type where
  | run (s : SState)
  | term (o : Outcome) (s : SState)

/-- Errors of the setup phase of `solve`, before the loop: the parse
can raise on an overlong line, and the empty-index lookups on a
missing Start or End raise `IndexError`. -/
inductive InitErr : Type where
  | parseFail
  | noStart
  | noEnd
deriving DecidableEq, Repr

/-- Setup phase of `solve`: parse the maze text, look up the Start and
End cells, seed the frontier with Start and zero the counters. -/
def solveInit (maze : List Char) (strat : Strat) : Except InitErr SState :=
  match string_to_array_maze maze with
  | none => .error .parseFail
  | some mat =>
    match mat.findVal 2 with
    | none => .error .noStart
    | some st =>
      match mat.findVal 3 with
      | none => .error .noEnd
      | some en =>
        .ok ⟨mat, [((st.1 : ℤ), (st.2 : ℤ))], ((st.1 : ℤ), (st.2 : ℤ)),
          ((en.1 : ℤ), (en.2 : ℤ)), strat, 0, 0, 0, 0⟩

/-- Squared Euclidean distance `(Δx)² + (Δy)²` between a cell and the
End cell, the sort key of the `'a*'` strategy (the source sorts by
`sqrt` of this quantity; `sqrt` is strictly monotone and the source's
stable sort therefore produces the ordering this integer key
produces). -/
def sqDistTo (stop p : ℤ × ℤ) : ℤ :=
  (stop.2 - p.2) ^ 2 + (stop.1 - p.1) ^ 2

/-- The `'a*'` ordering of newly discovered neighbours:
`sorted(next, key=lambda p: distance(p, end))` — a stable ascending
sort by distance to End. -/
def sortByDist (stop : ℤ × ℤ) (l : List (ℤ × ℤ)) : List (ℤ × ℤ) :=
  l.insertionSort fun p q => sqDistTo stop p ≤ sqDistTo stop q

/-- The neighbour scan of one expansion: the four prospective
neighbours `(y-1, x), (y, x-1), (y+1, x), (y, x+1)` in source order,
keeping those whose state is neither Wall nor Visited; a read outside
the matrix raises (`none`). -/
def scanNbrs (m : Mat) (y x : ℤ) : Option (List (ℤ × ℤ)) :=
  [(y - 1, x), (y, x - 1), (y + 1, x), (y, x + 1)].foldlM
    (fun acc p =>
      match m.readPy p with
      | none => none
      | some v => if v = 1 ∨ v = 5 then some acc else some (acc ++ [p]))
    []

/-- One iteration of the `while stack:` loop of `solve`.  `σ` models
`random.shuffle` on the newly discovered neighbours (the `'a*'`
strategy sorts instead and ignores it).  The writes, counter updates
and the End check happen in source order; an out-of-range access stops
the run with the `oob` outcome at the exact point the source would
raise. -/
def solveStep (σ : ℕ → List (ℤ × ℤ) → List (ℤ × ℤ)) (s : SState) : StepRes :=
  if s.stack = [] then .term .exhausted s
  else
    let current := if s.strat = .bfs then s.stack.headD (0, 0)
      else s.stack.getLastD (0, 0)
    let stack1 := if s.strat = .bfs then s.stack.tail else s.stack.dropLast
    let s1 : SState := { s with stack := stack1, step := s.step + 1 }
    match s1.mat.writePy current 7 with
    | none => .term .oob s1
    | some mat1 =>
      let s2 : SState := { s1 with
        mat := mat1
        maxDepth := if s1.step > s1.maxDepth then s1.step else s1.maxDepth
        explored := s1.explored + 1
        walked := s1.walked + 1 }
      if current = s.stop then
        match s2.mat.writePy s.start 2 with
        | none => .term .oob s2
        | some mat2 =>
          match mat2.writePy current 3 with
          | none => .term .oob { s2 with mat := mat2 }
          | some mat3 => .term .reachedEnd { s2 with mat := mat3 }
      else
        match s2.mat.writePy current 5 with
        | none => .term .oob s2
        | some mat4 =>
          let s3 : SState := { s2 with mat := mat4 }
          match scanNbrs mat4 current.1 current.2 with
          | none => .term .oob s3
          | some next =>
            let next2 := if s.strat = .astar then sortByDist s.stop next
              else σ s.step next
            .run { s3 with stack := s3.stack ++ next2, walked := s3.walked + 1 }

/-- Run the solve loop for at most `n` iterations; a terminal result
absorbs. -/
def iterateN (σ : ℕ → List (ℤ × ℤ) → List (ℤ × ℤ)) : ℕ → SState → StepRes
  | 0, s => .run s
  | n + 1, s =>
    match solveStep σ s with
    | .run s' => iterateN σ n s'
    | t => t

/-- Outcome of a step result, if terminal. -/
def outcomeOf : StepRes → Option Outcome
  | .run _ => none
  | .term o _ => some o

/-- State carried by a step result. -/
def stateOf : StepRes → SState
  | .run s => s
  | .term _ s => s

/-- Whether a step result is terminal. -/
def StepRes.isTerm : StepRes → Bool
  | .run _ => false
  | .term _ _ => true

/-- The identity shuffle oracle, one admissible outcome of
`random.shuffle`. -/
def idShuffle : ℕ → List (ℤ × ℤ) → List (ℤ × ℤ) := fun _ l => l

/-- A placeholder solver state, used only to give fallible concrete
extractions a default. -/
def dummyState : SState :=
  ⟨⟨0, 0, fun _ _ => 0⟩, [], (0, 0), (0, 0), .dfs, 0, 0, 0, 0⟩

/-- Extract the state of a successful setup, with a default for the
error case. -/
def initStateD : Except InitErr SState → SState
  | .ok s => s
  | .error _ => dummyState

/-- The well-formed two-by-two maze (one Start, one End, all
characters in the vocabulary) on which the solve loop dies with an
index error: the first expansion reads `(0, 2)`, one past the right
edge. -/
def c6maze : List Char := [' ', '&', '\n', '!', '#']

/-- Solver state after the setup phase on `c6maze`. -/
def c6state : SState := initStateD (solveInit c6maze .astar)

/-- A maze text containing the out-of-vocabulary character `Z`, with
exactly one Start and one End; the parser silently reads `Z` as Path
and the solver explores it and reaches End. -/
def c5maze : List Char :=
  ['#', '#', '#', '#', '\n', '#', '&', 'Z', '#', '\n',
   '#', '!', '#', '#', '\n', '#', '#', '#', '#']

/-- Solver state after the setup phase on `c5maze`. -/
def c5state : SState := initStateD (solveInit c5maze .astar)

/-- Character of a textual grid at `(row, column)`, defaulting to the
wall character outside the grid (only in-range positions matter for
the claims below). -/
def gridAt (g : List (List Char)) (p : ℕ × ℕ) : Char :=
  (g.getD p.1 []).getD p.2 '#'

/-- A Path cell of a textual grid: the serializer writes the character
of `c_path` there. -/
def isPath (g : List (List Char)) (p : ℕ × ℕ) : Prop :=
  gridAt g p = ' '

instance (g : List (List Char)) (p : ℕ × ℕ) : Decidable (isPath g p) :=
  inferInstanceAs (Decidable (_ = _))

/-- Four-connectedness of two coordinates. -/
def adjacent (p q : ℕ × ℕ) : Prop :=
  (p.1 = q.1 ∧ (p.2 + 1 = q.2 ∨ q.2 + 1 = p.2)) ∨
    (p.2 = q.2 ∧ (p.1 + 1 = q.1 ∨ q.1 + 1 = p.1))

/-- Reachability through Path cells by four-connected steps, the
connectivity notion of the perfect-maze property. -/
inductive Reaches (g : List (List Char)) (p : ℕ × ℕ) : ℕ × ℕ → Prop where
  | refl : Reaches g p p
  | tail {q r : ℕ × ℕ} :
      Reaches g p q → adjacent q r → isPath g r → Reaches g p r

/-- The `set.pop` oracle of the failing run for claim C1: pop room
`(3, 1)` first, then room `(3, 3)`, then always the first listed
room. -/
def c1popO : ℕ → ℕ := fun k => if k = 0 then 1 else if k = 1 then 4 else 0

/-- The shuffle oracle of the failing run for claim C1: the first two
carving steps choose the third admissible neighbour (`(3, 3)`, then
`(3, 5)`), later ones the first. -/
def c1chooseO : ℕ → ℕ := fun k => if k ≤ 1 then 2 else 0

/-- The maze string of the failing run for claim C1. -/
def c1maze : List Char :=
  array_to_string_maze (makeMazeMat 7 7 c1popO c1chooseO)

/-- Oracle that always answers 0, for concrete runs where the choice
does not matter. -/
def zeroO : ℕ → ℕ := fun _ => 0

/-- The grid `make_maze 3 3` produces (any oracle gives the same
2 × 2 all-wall result). -/
def m33 : Mat := makeMazeMat 3 3 zeroO zeroO

/-- Values of the working grid stay 0 or 1 throughout carving. -/
def binVals (m : Mat) : Prop :=
  ∀ y x : ℕ, m.data y x = 0 ∨ m.data y x = 1

/-- Relation between a maze character before and after the optional
Start/End stamping: either unchanged, or a Path (or previously
stamped) character replaced by a Start or End character. -/
def placeRel (a b : Char) : Prop :=
  b = a ∨ ((a = ' ' ∨ a = '&' ∨ a = '!') ∧ (b = '&' ∨ b = '!'))

/-- Whether a frontier entry currently resolves to a Wall or Visited
cell; entries that do not resolve at all count as not blocked (popping
them raises instead). -/
def blockedAt (m : Mat) (p : ℤ × ℤ) : Bool :=
  match m.readPy p with
  | some v => v == 1 || v == 5
  | none => false

/-- Number of grid cells that are neither Wall nor Visited; strictly
decreases whenever a pop marks a fresh cell Visited. -/
def Ucount (m : Mat) : ℕ :=
  ((Finset.range m.rows ×ˢ Finset.range m.cols).filter fun p =>
    ¬(m.data p.1 p.2 = 1 ∨ m.data p.1 p.2 = 5)).card

/-- Number of frontier entries resolving to blocked cells; strictly
decreases whenever a pop revisits an already Visited cell. -/
def Vcount (m : Mat) (stk : List (ℤ × ℤ)) : ℕ :=
  stk.countP (blockedAt m)

/-- The termination measure of the solve loop. -/
def solveMeasure (s : SState) : ℕ × ℕ :=
  (Ucount s.mat, Vcount s.mat s.stack)

/-- All cells on the outer border of a grid hold the Wall code. -/
def borderWall (m : Mat) : Prop :=
  ∀ y ∈ Finset.range m.rows, ∀ x ∈ Finset.range m.cols,
    y = 0 ∨ y = m.rows - 1 ∨ x = 0 ∨ x = m.cols - 1 → m.data y x = 1

instance (m : Mat) : Decidable (borderWall m) := by
  unfold borderWall
  infer_instance

/-- The grid positions one iteration of the solve loop touches: the
popped cell (written Current, compared with End, rewritten Visited)
and its four prospective neighbours in source order. -/
def stepAccesses (s : SState) : List (ℤ × ℤ) :=
  let c := if s.strat = Strat.bfs then s.stack.headD (0, 0)
    else s.stack.getLastD (0, 0)
  [c, (c.1 - 1, c.2), (c.1, c.2 - 1), (c.1 + 1, c.2), (c.1, c.2 + 1)]

/-- Invariant of the solve loop on wall-bordered mazes: the border
stays Wall and every frontier entry lies strictly inside the border. -/
def InteriorInv (s : SState) : Prop :=
  borderWall s.mat ∧
  ∀ p ∈ s.stack, 1 ≤ p.1 ∧ p.1 ≤ (s.mat.rows : ℤ) - 2 ∧
    1 ≤ p.2 ∧ p.2 ≤ (s.mat.cols : ℤ) - 2

/-- A wall-bordered three-by-five maze with interior Start and End, on
which the bounds theorem is witnessed at the initial iteration. -/
def w9maze : List Char :=
  ['#', '#', '#', '#', '#', '\n',
   '#', '&', ' ', '!', '#', '\n',
   '#', '#', '#', '#', '#']

/-- Solver state after the setup phase on `w9maze`. -/
def w9state : SState := initStateD (solveInit w9maze Strat.dfs)

/-- Coherence of the embedded table with the literal `codes` list of
the source. -/
theorem codes_eq_source :
    codes = [(0, ' ', [255, 255, 255]), (1, '#', [0, 0, 0]),
      (2, '&', [0, 255, 0]), (3, '!', [0, 255, 255]),
      (5, '.', [255, 0, 0]), (6, '*', [255, 255, 0]),
      (7, '@', [0, 255, 255])] := by
  decide

/-- Helper: a list whose members all avoid `c`, read with a default
that also avoids `c`, never yields `c`. -/
theorem getD_ne_of_all {l : List Char} {d c : Char}
    (h : ∀ a ∈ l, a ≠ c) (hd : d ≠ c) (n : ℕ) : l.getD n d ≠ c := by
  rcases Nat.lt_or_ge n l.length with h1 | h1
  · rw [List.getD_eq_getElem l d h1]
    exact h _ (List.getElem_mem h1)
  · rw [List.getD_eq_default l d h1]
    exact hd

set_option maxHeartbeats 4000000 in
/-- CLAIM C1 (failing run): `make_maze 7 7` with the pop order of
`c1popO`/`c1chooseO` returns a maze whose Path cells `(1, 1)` and
`(3, 1)` are separated by a full wall row, so the Path region is not
connected and the maze is not perfect.  The claim is right about the
intent and the code is wrong: the `visiting` bookkeeping of the
carving loop is broken (tuples are flattened into scalars, making its
membership test vacuous), so rooms popped after all their neighbours
can stay enclosed by walls on every side. -/
theorem c1_make_maze_disconnected :
    make_maze 7 7 false false c1popO c1chooseO 0 0 = some c1maze ∧
    isPath (mazeLines c1maze) (1, 1) ∧ isPath (mazeLines c1maze) (3, 1) ∧
    ¬ Reaches (mazeLines c1maze) (1, 1) (3, 1) := by
  refine ⟨by decide, by decide, by decide, fun h => ?_⟩
  have hrow : ∀ x : ℕ, gridAt (mazeLines c1maze) (2, x) ≠ ' ' := by
    intro x
    exact getD_ne_of_all (l := (mazeLines c1maze).getD 2 []) (by decide) (by decide) x
  have key : ∀ q, Reaches (mazeLines c1maze) (1, 1) q → q.1 ≤ 1 := by
    intro q hq
    induction hq with
    | refl => exact Nat.le_refl 1
    | @tail q r h1 hadj hpath ih =>
      have hadj' : (q.1 = r.1 ∧ (q.2 + 1 = r.2 ∨ r.2 + 1 = q.2)) ∨
          (q.2 = r.2 ∧ (q.1 + 1 = r.1 ∨ r.1 + 1 = q.1)) := hadj
      rcases hadj' with ⟨he, _⟩ | ⟨_, hv⟩
      · omega
      · have hr2 : r.1 ≠ 2 := by
          intro h2
          have hp' : isPath (mazeLines c1maze) (r.1, r.2) := hpath
          rw [h2] at hp'
          exact hrow r.2 hp'
        omega
  have h31 := key (3, 1) h
  exact absurd h31 (by decide)

set_option maxHeartbeats 1000000 in
/-- CLAIM C2 (counterexample): `make_maze(3, 3)` returns a maze whose
textual grid has 2 rows of 2 columns, not 3 rows of 3 columns: the
trim `mat[1:h-1, 1:w-1]` is applied to the already incremented
dimensions, leaving `h-1` rows and `w-1` columns of the requested
`h × w`. -/
theorem c2_dims_counterexample :
    make_maze 3 3 false false zeroO zeroO 0 0 = some (array_to_string_maze m33) ∧
    (mazeLines (array_to_string_maze m33)).length = 2 ∧ (2 : ℕ) ≠ 3 := by
  refine ⟨by decide, by decide, by decide⟩

set_option maxHeartbeats 1000000 in
/-- CLAIM C4 (counterexample): for the generator grid of
`make_maze(3, 3)`, text → parse → text appends one extra row of Path
characters (the parser turns the empty piece after the final line
break into a zero row), so the round trip is not the identity on the
text. -/
theorem c4_roundtrip_counterexample :
    (string_to_array_maze (array_to_string_maze m33)).map array_to_string_maze =
      some (array_to_string_maze m33 ++ [' ', ' ', '\n']) ∧
    (string_to_array_maze (array_to_string_maze m33)).map array_to_string_maze ≠
      some (array_to_string_maze m33) := by
  refine ⟨by decide, by decide⟩

/-- Every character the serializer can emit differs from the line
break. -/
theorem charOfVal_ne_newline {v : ℕ} {c : Char} (h : charOfVal v = some c) :
    c ≠ '\n' := by
  have hall : ∀ e ∈ codes, e.2.1 ≠ '\n' := by decide
  unfold charOfVal at h
  cases hf : codes.find? fun e => e.1 = v with
  | none => rw [hf] at h; cases h
  | some e =>
    rw [hf] at h
    cases h
    exact hall e (List.mem_of_find?_eq_some hf)

/-- On a list where a partial function is everywhere defined,
`filterMap` is a `map`. -/
theorem filterMap_of_all_isSome {α β : Type} (f : α → Option β) (d : β) :
    ∀ l : List α, (∀ a ∈ l, (f a).isSome) →
      l.filterMap f = l.map fun a => (f a).getD d := by
  intro l
  induction l with
  | nil => intro; rfl
  | cons a l ih =>
    intro h
    have ha := h a (List.mem_cons_self a l)
    cases hf : f a with
    | none => rw [hf] at ha; cases ha
    | some b =>
      rw [List.filterMap_cons, hf, List.map_cons,
        ih fun x hx => h x (List.mem_cons_of_mem a hx), hf]
      rfl

/-- Row serialization on a matrix whose entries all match the code
table is a plain character map over the row. -/
theorem rowChars_eq_map {m : Mat} {y : ℕ}
    (h : ∀ x, x < m.cols → (charOfVal (m.data y x)).isSome) :
    rowChars m y =
      (List.range m.cols).map fun x => (charOfVal (m.data y x)).getD ' ' := by
  unfold rowChars
  exact filterMap_of_all_isSome _ _ _ fun a ha => h a (List.mem_range.mp ha)

/-- Length of a fully serialized row. -/
theorem length_rowChars {m : Mat} {y : ℕ}
    (h : ∀ x, x < m.cols → (charOfVal (m.data y x)).isSome) :
    (rowChars m y).length = m.cols := by
  rw [rowChars_eq_map h]
  simp

/-- Serialized rows never contain the line break. -/
theorem newline_not_mem_rowChars (m : Mat) (y : ℕ) :
    '\n' ∉ rowChars m y := by
  intro hmem
  rcases List.mem_filterMap.mp hmem with ⟨x, _, hx⟩
  exact charOfVal_ne_newline hx rfl

/-- Splitting a concatenation of newline-terminated rows on the line
break recovers the rows, plus the empty piece after the final break. -/
theorem splitOn_flatten_rows :
    ∀ rs : List (List Char), (∀ r ∈ rs, '\n' ∉ r) →
      ((rs.map fun r => r ++ ['\n']).flatten).splitOn '\n' = rs ++ [[]] := by
  intro rs
  induction rs with
  | nil => intro; rfl
  | cons r rs ih =>
    intro h
    have h1 : ∀ x ∈ r, ¬((x == '\n') = true) := by
      intro x hx hb
      exact h r (List.mem_cons_self r rs) (by rwa [show x = '\n' by simpa using hb] at hx)
    show (((r ++ ['\n']) ++ (rs.map fun t => t ++ ['\n']).flatten).splitOnP (· == '\n')) = _
    rw [List.append_assoc]
    rw [show ['\n'] ++ (rs.map fun t => t ++ ['\n']).flatten =
      '\n' :: (rs.map fun t => t ++ ['\n']).flatten from rfl]
    rw [List.splitOnP_first (· == '\n') r h1 '\n' (by simp)]
    rw [show ((rs.map fun t => t ++ ['\n']).flatten).splitOnP (· == '\n') =
      ((rs.map fun t => t ++ ['\n']).flatten).splitOn '\n' from rfl]
    rw [ih fun t ht => h t (List.mem_cons_of_mem r ht)]
    rfl

/-- Splitting a serialized matrix on line breaks gives its serialized
rows followed by the empty piece after the final break. -/
theorem splitOn_a2s (m : Mat) :
    (array_to_string_maze m).splitOn '\n' =
      (List.range m.rows).map (rowChars m) ++ [[]] := by
  unfold array_to_string_maze
  rw [show ((List.range m.rows).map fun y => rowChars m y ++ ['\n']) =
      (((List.range m.rows).map (rowChars m)).map fun r => r ++ ['\n']) from by
    rw [List.map_map]; rfl]
  rw [splitOn_flatten_rows _ (by
    intro r hr
    rcases List.mem_map.mp hr with ⟨y, _, rfl⟩
    exact newline_not_mem_rowChars m y)]

/-- The textual grid of a serialized matrix is its list of serialized
rows. -/
theorem mazeLines_a2s (m : Mat) :
    mazeLines (array_to_string_maze m) = (List.range m.rows).map (rowChars m) := by
  unfold mazeLines
  rw [splitOn_a2s]
  exact List.dropLast_concat ..

/-- Matrix updates keep the dimensions. -/
theorem Mat.upd_rows (m : Mat) (y x v : ℕ) : (m.upd y x v).rows = m.rows :=
  rfl

/-- Matrix updates keep the dimensions. -/
theorem Mat.upd_cols (m : Mat) (y x v : ℕ) : (m.upd y x v).cols = m.cols :=
  rfl

/-- Row assignment keeps the dimensions. -/
theorem Mat.setRow_rows (m : Mat) (y v : ℕ) : (m.setRow y v).rows = m.rows :=
  rfl

/-- Row assignment keeps the dimensions. -/
theorem Mat.setRow_cols (m : Mat) (y v : ℕ) : (m.setRow y v).cols = m.cols :=
  rfl

/-- Column assignment keeps the dimensions. -/
theorem Mat.setCol_rows (m : Mat) (x v : ℕ) : (m.setCol x v).rows = m.rows :=
  rfl

/-- Column assignment keeps the dimensions. -/
theorem Mat.setCol_cols (m : Mat) (x v : ℕ) : (m.setCol x v).cols = m.cols :=
  rfl

/-- The trim slice removes two rows and two columns. -/
theorem Mat.trim_rows (m : Mat) : m.trim.rows = m.rows - 2 :=
  rfl

/-- The trim slice removes two rows and two columns. -/
theorem Mat.trim_cols (m : Mat) : m.trim.cols = m.cols - 2 :=
  rfl

/-- Carving steps keep the grid dimensions. -/
theorem genStep_dims (a b : ℕ) (s : GenState) :
    (genStep a b s).mat.rows = s.mat.rows ∧
      (genStep a b s).mat.cols = s.mat.cols := by
  unfold genStep
  dsimp only
  split_ifs <;> exact ⟨rfl, rfl⟩

/-- The carving loop keeps the grid dimensions. -/
theorem genLoop_dims (popO chooseO : ℕ → ℕ) :
    ∀ (fuel k : ℕ) (s : GenState),
      (genLoop popO chooseO k fuel s).mat.rows = s.mat.rows ∧
        (genLoop popO chooseO k fuel s).mat.cols = s.mat.cols := by
  intro fuel
  induction fuel with
  | zero => intro k s; exact ⟨rfl, rfl⟩
  | succ n ih =>
    intro k s
    rw [genLoop]
    split
    · exact ⟨rfl, rfl⟩
    · rcases ih (k + 1) (genStep (popO k) (chooseO k) s) with ⟨h1, h2⟩
      rcases genStep_dims (popO k) (chooseO k) s with ⟨h3, h4⟩
      exact ⟨h1.trans h3, h2.trans h4⟩

/-- Folding room initialisation keeps the dimensions. -/
theorem foldl_upd_dims (l : List (ℕ × ℕ)) :
    ∀ m : Mat, ((l.foldl (fun m p => m.upd p.1 p.2 1) m).rows = m.rows ∧
      (l.foldl (fun m p => m.upd p.1 p.2 1) m).cols = m.cols) := by
  induction l with
  | nil => intro m; exact ⟨rfl, rfl⟩
  | cons p l ih =>
    intro m
    exact (ih (m.upd p.1 p.2 1))

/-- Dimensions of the initial working grid. -/
theorem genInitMat_dims (h w : ℕ) :
    (genInitMat h w).rows = h ∧ (genInitMat h w).cols = w :=
  foldl_upd_dims (rooms h w) ⟨h, w, fun _ _ => 0⟩

/-- Dimensions of the grid `make_maze w h` carves and trims: `h - 1`
rows by `w - 1` columns (the slice `mat[1:h-1, 1:w-1]` is taken on the
already incremented dimensions). -/
theorem makeMazeMat_dims (w h : ℕ) (popO chooseO : ℕ → ℕ) :
    (makeMazeMat w h popO chooseO).rows = h - 1 ∧
      (makeMazeMat w h popO chooseO).cols = w - 1 := by
  rcases genLoop_dims popO chooseO (rooms (h + 1) (w + 1)).length 0
    ⟨genInitMat (h + 1) (w + 1), rooms (h + 1) (w + 1), []⟩ with ⟨h1, h2⟩
  rcases genInitMat_dims (h + 1) (w + 1) with ⟨h3, h4⟩
  constructor
  · unfold makeMazeMat
    rw [Mat.trim_rows, Mat.setRow_rows, Mat.setRow_rows, Mat.setCol_rows,
      Mat.setCol_rows, h1]
    show (genInitMat (h + 1) (w + 1)).rows - 2 = h - 1
    rw [h3]
    omega
  · unfold makeMazeMat
    rw [Mat.trim_cols, Mat.setRow_cols, Mat.setRow_cols, Mat.setCol_cols,
      Mat.setCol_cols, h2]
    show (genInitMat (h + 1) (w + 1)).cols - 2 = w - 1
    rw [h4]
    omega

/-- Wall writes preserve binary values. -/
theorem binVals_upd {m : Mat} (h : binVals m) (y x : ℕ) :
    binVals (m.upd y x 1) := by
  intro y' x'
  unfold Mat.upd
  dsimp only
  split_ifs <;> first | exact Or.inr rfl | exact h y' x'

/-- The initial working grid is binary valued. -/
theorem binVals_foldl_upd (l : List (ℕ × ℕ)) :
    ∀ m : Mat, binVals m → binVals (l.foldl (fun m p => m.upd p.1 p.2 1) m) := by
  induction l with
  | nil => intro m hm; exact hm
  | cons p l ih => intro m hm; exact ih _ (binVals_upd hm p.1 p.2)

/-- Carving steps preserve binary values. -/
theorem binVals_genStep (a b : ℕ) {s : GenState} (h : binVals s.mat) :
    binVals (genStep a b s).mat := by
  unfold genStep
  dsimp only
  split_ifs <;> first | exact binVals_upd h _ _ | exact h

/-- The carving loop preserves binary values. -/
theorem binVals_genLoop (popO chooseO : ℕ → ℕ) :
    ∀ (fuel k : ℕ) (s : GenState), binVals s.mat →
      binVals (genLoop popO chooseO k fuel s).mat := by
  intro fuel
  induction fuel with
  | zero => intro k s h; exact h
  | succ n ih =>
    intro k s h
    rw [genLoop]
    split
    · exact h
    · exact ih (k + 1) _ (binVals_genStep (popO k) (chooseO k) h)

/-- The final trimmed grid of `make_maze` is binary valued: every cell
is Path or Wall before the optional Start/End stamping. -/
theorem binVals_makeMazeMat (w h : ℕ) (popO chooseO : ℕ → ℕ) :
    binVals (makeMazeMat w h popO chooseO) := by
  unfold makeMazeMat
  dsimp only
  intro y x
  show (if _ then _ else _ : ℕ) = 0 ∨ _
  have hloop := binVals_genLoop popO chooseO (rooms (h + 1) (w + 1)).length 0
    ⟨genInitMat (h + 1) (w + 1), rooms (h + 1) (w + 1), []⟩
    (binVals_foldl_upd _ _ fun _ _ => Or.inl rfl)
  simp only [Mat.trim, Mat.setRow, Mat.setCol]
  split_ifs <;> first | exact Or.inr rfl | exact hloop _ _

/-- Border values of the trimmed grid: the four forced lines
`mat[:, 1]`, `mat[:, w-2]`, `mat[1, :]`, `mat[h-2, :]` of the oversized
grid become the outer border of the trimmed grid, and they are Wall. -/
theorem makeMazeMat_border (w h : ℕ) (popO chooseO : ℕ → ℕ) {y x : ℕ}
    (hcond : y = 0 ∨ y = h - 2 ∨ x = 0 ∨ x = w - 2) :
    (makeMazeMat w h popO chooseO).data y x = 1 := by
  unfold makeMazeMat
  dsimp only
  simp only [Mat.trim, Mat.setRow, Mat.setCol]
  split_ifs <;> first | rfl | omega

/-- Path and Wall codes both serialize to a character. -/
theorem charOfVal_isSome_of_bin {v : ℕ} (h : v = 0 ∨ v = 1) :
    (charOfVal v).isSome := by
  rcases h with h | h <;> subst h <;> decide

/-- CLAIM C2 (amended): `make_maze(w, h)` with `w, h ≥ 1` works on an
internal grid of size `(h+1) × (w+1)` and, after carving and trimming,
returns a maze whose textual grid has exactly `h - 1` rows and exactly
`w - 1` columns (not `h` rows and `w` columns: the trim is applied to
the incremented dimensions). -/
theorem c2_amended_dims (w h : ℕ) (hw : 1 ≤ w) (hh : 1 ≤ h)
    (popO chooseO : ℕ → ℕ) (r1 r2 : ℕ) :
    ∃ maze, make_maze w h false false popO chooseO r1 r2 = some maze ∧
      (genInitMat (h + 1) (w + 1)).rows = h + 1 ∧
      (genInitMat (h + 1) (w + 1)).cols = w + 1 ∧
      (mazeLines maze).length = h - 1 ∧
      ∀ l ∈ mazeLines maze, l.length = w - 1 := by
  refine ⟨array_to_string_maze (makeMazeMat w h popO chooseO), rfl,
    (genInitMat_dims (h + 1) (w + 1)).1, (genInitMat_dims (h + 1) (w + 1)).2, ?_, ?_⟩
  · rw [mazeLines_a2s]
    simp [(makeMazeMat_dims w h popO chooseO).1]
  · intro l hl
    rw [mazeLines_a2s] at hl
    rcases List.mem_map.mp hl with ⟨y, _, rfl⟩
    rw [length_rowChars fun x _ =>
      charOfVal_isSome_of_bin (binVals_makeMazeMat w h popO chooseO y x)]
    exact (makeMazeMat_dims w h popO chooseO).2

/-- CLAIM C2 (witness): the amended theorem at `w = h = 3` with the
constant-zero oracles. -/
theorem c2_amended_dims_witness :
    ∃ maze, make_maze 3 3 false false zeroO zeroO 0 0 = some maze ∧
      (genInitMat 4 4).rows = 4 ∧ (genInitMat 4 4).cols = 4 ∧
      (mazeLines maze).length = 2 ∧ ∀ l ∈ mazeLines maze, l.length = 2 :=
  c2_amended_dims 3 3 (by decide) (by decide) zeroO zeroO 0 0

/-- Stamping relates every string to itself. -/
theorem placeRel_refl (l : List Char) : List.Forall₂ placeRel l l :=
  List.forall₂_same.mpr fun _ _ => Or.inl rfl

/-- Pointwise transitivity of the stamping relation. -/
theorem placeRel_comp {a b c : Char} (h1 : placeRel a b) (h2 : placeRel b c) :
    placeRel a c := by
  rcases h1 with rfl | ⟨ha, hb⟩
  · exact h2
  · rcases h2 with rfl | ⟨_, hc⟩
    · exact Or.inr ⟨ha, hb⟩
    · exact Or.inr ⟨ha, hc⟩

/-- Transitivity of the stamping relation on whole strings. -/
theorem forall2_placeRel_comp {l m n : List Char}
    (h1 : List.Forall₂ placeRel l m) (h2 : List.Forall₂ placeRel m n) :
    List.Forall₂ placeRel l n := by
  induction h1 generalizing n with
  | nil => cases h2; exact .nil
  | cons hab h1' ih =>
    cases h2 with
    | cons hbc h2' => exact .cons (placeRel_comp hab hbc) (ih h2')

/-- One stamping write relates the string before to the string
after. -/
theorem forall2_placeRel_set (l : List Char) (i : ℕ) (c : Char)
    (hc : c = '&' ∨ c = '!')
    (ha : ∀ a, l.get? i = some a → (a = ' ' ∨ a = '&' ∨ a = '!')) :
    List.Forall₂ placeRel l (l.set i c) := by
  induction l generalizing i with
  | nil => exact .nil
  | cons x xs ih =>
    cases i with
    | zero => exact .cons (Or.inr ⟨ha x rfl, hc⟩) (placeRel_refl xs)
    | succ n => exact .cons (Or.inl rfl) (ih n fun a hA => ha a hA)

/-- Stamping never touches a line break, so splitting on line breaks
commutes with it. -/
theorem forall2_placeRel_splitOn {l m : List Char}
    (h : List.Forall₂ placeRel l m) :
    List.Forall₂ (List.Forall₂ placeRel) (l.splitOn '\n') (m.splitOn '\n') := by
  induction h with
  | nil => exact .cons .nil .nil
  | @cons a b l' m' hab h' ih =>
    show List.Forall₂ _ ((a :: l').splitOnP (· == '\n'))
      ((b :: m').splitOnP (· == '\n'))
    rw [List.splitOnP_cons, List.splitOnP_cons]
    by_cases hA : a = '\n'
    · have hB : b = '\n' := by
        rcases hab with rfl | ⟨hac, _⟩
        · exact hA
        · exfalso
          rw [hA] at hac
          rcases hac with h0 | h0 | h0 <;> exact absurd h0 (by decide)
      rw [if_pos (by simp [hA]), if_pos (by simp [hB])]
      exact .cons .nil ih
    · have hB : b ≠ '\n' := by
        rcases hab with rfl | ⟨_, hbc⟩
        · exact hA
        · rcases hbc with rfl | rfl <;> decide
      rw [if_neg (by simp [hA]), if_neg (by simp [hB])]
      have ih' : List.Forall₂ (List.Forall₂ placeRel)
          (l'.splitOnP (· == '\n')) (m'.splitOnP (· == '\n')) := ih
      generalize e1 : l'.splitOnP (· == '\n') = L at ih' ⊢
      generalize e2 : m'.splitOnP (· == '\n') = M at ih' ⊢
      cases ih' with
      | nil => exact absurd e1 (List.splitOnP_ne_nil _ l')
      | cons hh ht => exact .cons (.cons hab hh) ht

/-- Stamping commutes with dropping the final (empty) piece of the
split. -/
theorem forall2_dropLast {α : Type} {r : α → α → Prop} :
    ∀ {l m : List α}, List.Forall₂ r l m →
      List.Forall₂ r l.dropLast m.dropLast := by
  intro l m h
  induction h with
  | nil => exact .nil
  | cons hab h' ih =>
    cases h' with
    | nil => exact .nil
    | cons hcd h2 => exact .cons hab ih

/-- Related strings give related characters at every position. -/
theorem forall2_get? {α : Type} {r : α → α → Prop} :
    ∀ {l m : List α}, List.Forall₂ r l m →
      ∀ (i : ℕ) (a b : α), l.get? i = some a → m.get? i = some b → r a b := by
  intro l m h
  induction h with
  | nil => intro i a b h1; cases h1
  | cons hab h' ih =>
    intro i a b h1 h2
    cases i with
    | zero => cases h1; cases h2; exact hab
    | succ n => exact ih n a b h1 h2

/-- Related lists of rows give related rows at every index. -/
theorem forall2_getD {α : Type} {r : α → α → Prop} {d : α} (hd : r d d) :
    ∀ {l m : List α}, List.Forall₂ r l m →
      ∀ i : ℕ, r (l.getD i d) (m.getD i d) := by
  intro l m h
  induction h with
  | nil => intro i; exact hd
  | cons hab h' ih =>
    intro i
    cases i with
    | zero => exact hab
    | succ n => exact ih n

/-- A wall character survives stamping, position by position. -/
theorem placeRel_preserves_wall {l m : List Char}
    (h : List.Forall₂ placeRel l m) (i : ℕ)
    (hw : l.getD i '#' = '#') : m.getD i '#' = '#' := by
  rcases Nat.lt_or_ge i l.length with hi | hi
  · have hi' : i < m.length := h.length_eq ▸ hi
    have h1 : l.get? i = some (l.getD i '#') := by
      rw [List.getD_eq_getElem l '#' hi]
      exact List.get?_eq_get hi
    have h2 : m.get? i = some (m.getD i '#') := by
      rw [List.getD_eq_getElem m '#' hi']
      exact List.get?_eq_get hi'
    have := forall2_get? h i _ _ h1 h2
    rw [hw] at this
    rcases this with h3 | ⟨h3, _⟩
    · exact h3
    · rcases h3 with h4 | h4 | h4 <;> cases h4
  · exact List.getD_eq_default m '#' (h.length_eq ▸ hi)

/-- Members of the `spaces` list of `make_maze` point at Path
characters of the maze string. -/
theorem spacesIdx_get {s : List Char} {j : ℕ} (h : j ∈ spacesIdx s) :
    s.get? j = some ' ' := by
  rcases List.mem_map.mp h with ⟨p, hp, rfl⟩
  have hmem := List.mem_of_mem_filter hp
  have hval : p.2 = ' ' := by simpa using List.of_mem_filter hp
  rw [List.mem_enum_iff_get?.mp hmem, hval]

/-- Valid positions of a list are members. -/
theorem getD_mem {α : Type} {l : List α} {i : ℕ} (d : α) (h : i < l.length) :
    l.getD i d ∈ l := by
  rw [List.getD_eq_getElem l d h]
  exact List.getElem_mem h

/-- The maze string returned by `make_maze` is related to the
serialized carved grid by stamping. -/
theorem make_maze_placeRel {w h : ℕ} {startQ endQ : Bool}
    {popO chooseO : ℕ → ℕ} {r1 r2 : ℕ} {maze : List Char}
    (hm : make_maze w h startQ endQ popO chooseO r1 r2 = some maze) :
    List.Forall₂ placeRel
      (array_to_string_maze (makeMazeMat w h popO chooseO)) maze := by
  rw [make_maze] at hm
  generalize hM : array_to_string_maze (makeMazeMat w h popO chooseO) = maze0 at hm ⊢
  have hget : ∀ i : ℕ, i < (spacesIdx maze0).length →
      maze0.get? ((spacesIdx maze0).getD i 0) = some ' ' := fun i hi =>
    spacesIdx_get (getD_mem 0 hi)
  cases startQ with
  | false =>
    rw [if_neg (by decide)] at hm
    cases endQ with
    | false =>
      rw [if_neg (by decide)] at hm
      obtain rfl := Option.some.inj hm
      exact placeRel_refl maze0
    | true =>
      rw [if_pos rfl] at hm
      by_cases hz : (spacesIdx maze0).length = 0
      · rw [if_pos hz] at hm
        cases hm
      · rw [if_neg hz] at hm
        obtain rfl := Option.some.inj hm
        refine forall2_placeRel_set maze0 _ '!' (Or.inr rfl) fun a hA => ?_
        rw [hget (r2 % (spacesIdx maze0).length) (Nat.mod_lt _ (by omega))] at hA
        cases hA
        exact Or.inl rfl
  | true =>
    rw [if_pos rfl] at hm
    by_cases hz : (spacesIdx maze0).length = 0
    · rw [if_pos hz] at hm
      cases hm
    · rw [if_neg hz] at hm
      have hlt : r1 % (spacesIdx maze0).length < (spacesIdx maze0).length :=
        Nat.mod_lt _ (by omega)
      have h1 : List.Forall₂ placeRel maze0
          (maze0.set ((spacesIdx maze0).getD (r1 % (spacesIdx maze0).length) 0) '&') := by
        refine forall2_placeRel_set maze0 _ '&' (Or.inl rfl) fun a hA => ?_
        rw [hget _ hlt] at hA
        cases hA
        exact Or.inl rfl
      cases endQ with
      | false =>
        rw [if_neg (by decide)] at hm
        obtain rfl := Option.some.inj hm
        exact h1
      | true =>
        rw [if_pos rfl] at hm
        by_cases hz2 : ((spacesIdx maze0).eraseIdx
            (r1 % (spacesIdx maze0).length)).length = 0
        · rw [if_pos hz2] at hm
          cases hm
        · rw [if_neg hz2] at hm
          obtain rfl := Option.some.inj hm
          refine forall2_placeRel_comp h1 ?_
          refine forall2_placeRel_set _ _ '!' (Or.inr rfl) fun a hA => ?_
          have hlen2 : 0 < ((spacesIdx maze0).eraseIdx
              (r1 % (spacesIdx maze0).length)).length := by omega
          have hmem2 : ((spacesIdx maze0).eraseIdx (r1 % (spacesIdx maze0).length)).getD
              (r2 % ((spacesIdx maze0).eraseIdx (r1 % (spacesIdx maze0).length)).length) 0
              ∈ (spacesIdx maze0).eraseIdx (r1 % (spacesIdx maze0).length) :=
            getD_mem 0 (Nat.mod_lt _ hlen2)
          have hjs := List.eraseIdx_subset (spacesIdx maze0)
            (r1 % (spacesIdx maze0).length) hmem2
          have hj0 := spacesIdx_get hjs
          by_cases he : (spacesIdx maze0).getD (r1 % (spacesIdx maze0).length) 0 =
              ((spacesIdx maze0).eraseIdx (r1 % (spacesIdx maze0).length)).getD
                (r2 % ((spacesIdx maze0).eraseIdx (r1 % (spacesIdx maze0).length)).length) 0
          · rw [← he, List.get?_set_eq, he, hj0] at hA
            cases hA
            exact Or.inr (Or.inl rfl)
          · rw [List.get?_set_ne _ _ he, hj0] at hA
            cases hA
            exact Or.inl rfl

/-- Reading a mapped range list at a valid index. -/
theorem getD_map_range {α : Type} (f : ℕ → α) {n r : ℕ} (d : α) (h : r < n) :
    ((List.range n).map f).getD r d = f r := by
  rw [List.getD_eq_getElem _ _ (by simpa using h)]
  simp

/-- Border characters of the serialized carved grid, before any
Start/End stamping, are the wall character. -/
theorem a2s_border (w h : ℕ) (popO chooseO : ℕ → ℕ) {r c : ℕ}
    (hr : r < h - 1) (hc : c < w - 1)
    (hcond : r = 0 ∨ r = h - 2 ∨ c = 0 ∨ c = w - 2) :
    gridAt (mazeLines (array_to_string_maze (makeMazeMat w h popO chooseO)))
      (r, c) = '#' := by
  have hds := makeMazeMat_dims w h popO chooseO
  unfold gridAt
  rw [mazeLines_a2s]
  have h1 : r < (makeMazeMat w h popO chooseO).rows := by rw [hds.1]; exact hr
  rw [getD_map_range _ _ h1]
  rw [rowChars_eq_map fun x _ =>
    charOfVal_isSome_of_bin (binVals_makeMazeMat w h popO chooseO r x)]
  have h2 : c < (makeMazeMat w h popO chooseO).cols := by rw [hds.2]; exact hc
  rw [getD_map_range _ _ h2]
  rw [makeMazeMat_border w h popO chooseO hcond]
  rfl

/-- CLAIM C8: every maze string returned by `make_maze` with
`w, h ≥ 1`, including after optional Start/End placement, has only
Wall cells on the outer border of its textual grid (first row, last
row, first column, last column). -/
theorem c8_border_wall (w h : ℕ) (hw : 1 ≤ w) (hh : 1 ≤ h)
    (startQ endQ : Bool) (popO chooseO : ℕ → ℕ) (r1 r2 : ℕ) (maze : List Char)
    (hm : make_maze w h startQ endQ popO chooseO r1 r2 = some maze) :
    ∀ r c : ℕ, r < (mazeLines maze).length →
      c < ((mazeLines maze).getD r []).length →
      (r = 0 ∨ r = (mazeLines maze).length - 1 ∨ c = 0 ∨
        c = ((mazeLines maze).getD r []).length - 1) →
      gridAt (mazeLines maze) (r, c) = '#' := by
  intro r c hrl hcl hcond
  have hF := make_maze_placeRel hm
  have hFL : List.Forall₂ (List.Forall₂ placeRel)
      (mazeLines (array_to_string_maze (makeMazeMat w h popO chooseO)))
      (mazeLines maze) :=
    forall2_dropLast (forall2_placeRel_splitOn hF)
  have hlen0 : (mazeLines (array_to_string_maze (makeMazeMat w h popO chooseO))).length
      = h - 1 := by
    rw [mazeLines_a2s]
    simp [(makeMazeMat_dims w h popO chooseO).1]
  have hlen : (mazeLines maze).length = h - 1 := by
    rw [← hFL.length_eq, hlen0]
  have hr : r < h - 1 := hlen ▸ hrl
  have hrow : List.Forall₂ placeRel
      ((mazeLines (array_to_string_maze (makeMazeMat w h popO chooseO))).getD r [])
      ((mazeLines maze).getD r []) :=
    forall2_getD .nil hFL r
  have hrow0len : ((mazeLines (array_to_string_maze
      (makeMazeMat w h popO chooseO))).getD r []).length = w - 1 := by
    rw [mazeLines_a2s]
    rw [getD_map_range _ _ (by rw [(makeMazeMat_dims w h popO chooseO).1]; exact hr)]
    rw [length_rowChars fun x _ =>
      charOfVal_isSome_of_bin (binVals_makeMazeMat w h popO chooseO r x)]
    exact (makeMazeMat_dims w h popO chooseO).2
  have hrowlen : ((mazeLines maze).getD r []).length = w - 1 := by
    rw [← hrow.length_eq, hrow0len]
  have hc : c < w - 1 := hrowlen ▸ hcl
  have hcond' : r = 0 ∨ r = h - 2 ∨ c = 0 ∨ c = w - 2 := by
    rw [hlen, hrowlen] at hcond
    omega
  have hb := a2s_border w h popO chooseO hr hc hcond'
  exact placeRel_preserves_wall hrow c hb

/-- CLAIM C8 (witness): the border theorem applied to the concrete
maze `make_maze 3 3` returns with the constant-zero oracles, at the
corner cell `(0, 0)`. -/
theorem c8_border_wall_witness :
    gridAt (mazeLines (array_to_string_maze m33)) (0, 0) = '#' :=
  c8_border_wall 3 3 (by decide) (by decide) false false zeroO zeroO 0 0
    (array_to_string_maze m33) rfl 0 0 (by decide) (by decide) (Or.inl rfl)

/-- Parse/serialize character round trip: every character the
serializer emits parses back to the code it came from. -/
theorem valOfChar_charOfVal {v : ℕ} {c : Char} (h : charOfVal v = some c) :
    valOfChar c = some v := by
  have hall : ∀ e ∈ codes, valOfChar e.2.1 = some e.1 := by decide
  unfold charOfVal at h
  cases hf : codes.find? fun e => e.1 = v with
  | none => rw [hf] at h; cases h
  | some e =>
    rw [hf] at h
    cases h
    have h1 : (e.1 = v) = true := by
      have := List.find?_some hf
      simpa using this
    rw [hall e (List.mem_of_find?_eq_some hf)]
    simp at h1
    rw [h1]

/-- Effect of one parser write. -/
theorem parsePutChar_spec {m : Mat} {y x : ℕ} {c : Char} {m' : Mat}
    (h : parsePutChar m y x c = some m') :
    m'.rows = m.rows ∧ m'.cols = m.cols ∧
      ∀ y' x', m'.data y' x' =
        if y' = y ∧ x' = x ∧ (valOfChar c).isSome then (valOfChar c).getD 0
        else m.data y' x' := by
  unfold parsePutChar at h
  cases hv : valOfChar c with
  | none =>
    rw [hv] at h
    obtain rfl := Option.some.inj h
    exact ⟨rfl, rfl, fun y' x' => by simp⟩
  | some v =>
    rw [hv] at h
    replace h : (if y < m.rows ∧ x < m.cols then some (m.upd y x v) else none)
        = some m' := h
    by_cases hb : y < m.rows ∧ x < m.cols
    · rw [if_pos hb] at h
      obtain rfl := Option.some.inj h
      refine ⟨rfl, rfl, fun y' x' => ?_⟩
      show (if y' = y then if x' = x then v else m.data y' x' else m.data y' x') = _
      by_cases h1 : y' = y <;> by_cases h2 : x' = x <;> simp [h1, h2]
    · rw [if_neg hb] at h
      cases h

/-- A parser write of a recognised character inside the matrix bounds
succeeds. -/
theorem parsePutChar_isSome {m : Mat} {y x : ℕ} {c : Char}
    (h : (valOfChar c).isSome → y < m.rows ∧ x < m.cols) :
    (parsePutChar m y x c).isSome := by
  unfold parsePutChar
  cases hv : valOfChar c with
  | none => rfl
  | some v =>
    show (if y < m.rows ∧ x < m.cols then some (m.upd y x v) else none).isSome
    rw [if_pos (h (by rw [hv]; rfl))]
    rfl

/-- Effect of parsing one line of recognised characters that fits in
the matrix width: the writes succeed and fill exactly the cells of row
`y` covered by the line. -/
theorem parseLine_go {y : ℕ} :
    ∀ (cs : List Char) (k : ℕ) (m : Mat),
      (∀ c ∈ cs, (valOfChar c).isSome) → k + cs.length ≤ m.cols → y < m.rows →
      ∃ m', (List.enumFrom k cs).foldlM
          (fun acc p => parsePutChar acc y p.1 p.2) m = some m' ∧
        m'.rows = m.rows ∧ m'.cols = m.cols ∧
        ∀ y' x', m'.data y' x' =
          if y' = y ∧ k ≤ x' ∧ x' < k + cs.length
          then (valOfChar (cs.getD (x' - k) ' ')).getD 0
          else m.data y' x' := by
  intro cs
  induction cs with
  | nil =>
    intro k m _ _ _
    refine ⟨m, rfl, rfl, rfl, fun y' x' => ?_⟩
    rw [if_neg fun hco => by
      have := hco.2.2
      simp only [List.length_nil] at this
      omega]
  | cons c cs ih =>
    intro k m hvoc hlen hy
    have hc : (valOfChar c).isSome := hvoc c (List.mem_cons_self c cs)
    have hk : k < m.cols := by
      have := hlen
      simp only [List.length_cons] at this
      omega
    cases hput : parsePutChar m y k c with
    | none =>
      exfalso
      have := parsePutChar_isSome (m := m) (y := y) (x := k) (c := c)
        fun _ => ⟨hy, hk⟩
      rw [hput] at this
      cases this
    | some m1 =>
      rcases parsePutChar_spec hput with ⟨hr1, hc1, hd1⟩
      have hlen1 : (k + 1) + cs.length ≤ m1.cols := by
        rw [hc1]
        simp only [List.length_cons] at hlen
        omega
      have hy1 : y < m1.rows := by rw [hr1]; exact hy
      rcases ih (k + 1) m1 (fun c' hc' => hvoc c' (List.mem_cons_of_mem c hc'))
        hlen1 hy1 with ⟨m', hfold, hr2, hc2, hd2⟩
      refine ⟨m', ?_, hr2.trans hr1, hc2.trans hc1, ?_⟩
      · show (parsePutChar m y k c >>= fun m1 =>
          (List.enumFrom (k + 1) cs).foldlM (fun acc p => parsePutChar acc y p.1 p.2) m1)
          = some m'
        rw [hput]
        exact hfold
      · intro y' x'
        rw [hd2 y' x']
        by_cases hcase : y' = y ∧ k + 1 ≤ x' ∧ x' < k + 1 + cs.length
        · rw [if_pos hcase, if_pos (by simp only [List.length_cons]; omega)]
          have hx : x' - k = (x' - (k + 1)) + 1 := by omega
          rw [hx, List.getD_cons_succ]
        · rw [if_neg hcase]
          rw [hd1 y' x']
          by_cases hcase2 : y' = y ∧ x' = k
          · rw [if_pos ⟨hcase2.1, hcase2.2, hc⟩,
              if_pos (by simp only [List.length_cons]; omega)]
            have hx : x' - k = 0 := by omega
            rw [hx, List.getD_cons_zero]
          · rw [if_neg (by tauto), if_neg (by simp only [List.length_cons]; omega)]

/-- Effect of parsing a list of lines of recognised characters, each
fitting in the matrix width, starting at row `k`. -/
theorem parseLines_go :
    ∀ (ls : List (List Char)) (k : ℕ) (m : Mat),
      (∀ l ∈ ls, (∀ c ∈ l, (valOfChar c).isSome) ∧ l.length ≤ m.cols) →
      k + ls.length ≤ m.rows →
      ∃ m', (List.enumFrom k ls).foldlM
          (fun acc p => parsePutLine acc p.1 p.2) m = some m' ∧
        m'.rows = m.rows ∧ m'.cols = m.cols ∧
        ∀ y' x', m'.data y' x' =
          if k ≤ y' ∧ y' < k + ls.length ∧ x' < (ls.getD (y' - k) []).length
          then (valOfChar ((ls.getD (y' - k) []).getD x' ' ')).getD 0
          else m.data y' x' := by
  intro ls
  induction ls with
  | nil =>
    intro k m _ _
    refine ⟨m, rfl, rfl, rfl, fun y' x' => ?_⟩
    rw [if_neg fun hco => by
      have := hco.2.1
      simp only [List.length_nil] at this
      omega]
  | cons l ls ih =>
    intro k m hvoc hlen
    have hl := hvoc l (List.mem_cons_self l ls)
    have hy : k < m.rows := by
      simp only [List.length_cons] at hlen
      omega
    rcases parseLine_go l 0 m hl.1 (by simpa using hl.2) hy
      with ⟨m1, hfold1, hr1, hc1, hd1⟩
    have hlen1 : (k + 1) + ls.length ≤ m1.rows := by
      rw [hr1]
      simp only [List.length_cons] at hlen
      omega
    rcases ih (k + 1) m1 (fun l' hl' => by
      rw [hc1]; exact hvoc l' (List.mem_cons_of_mem l hl')) hlen1
      with ⟨m', hfold2, hr2, hc2, hd2⟩
    refine ⟨m', ?_, hr2.trans hr1, hc2.trans hc1, ?_⟩
    · show (parsePutLine m k l >>= fun m1 =>
        (List.enumFrom (k + 1) ls).foldlM (fun acc p => parsePutLine acc p.1 p.2) m1)
        = some m'
      rw [show parsePutLine m k l = some m1 from hfold1]
      exact hfold2
    · intro y' x'
      rw [hd2 y' x']
      by_cases hcase : k + 1 ≤ y' ∧ y' < k + 1 + ls.length ∧
          x' < (ls.getD (y' - (k + 1)) []).length
      · have hyk : y' - k = (y' - (k + 1)) + 1 := by omega
        rw [if_pos hcase,
          if_pos (by simp only [List.length_cons]; rw [hyk, List.getD_cons_succ]; omega)]
        rw [hyk, List.getD_cons_succ]
      · rw [if_neg hcase, hd1 y' x']
        by_cases hcase2 : y' = k ∧ 0 ≤ x' ∧ x' < 0 + l.length
        · have hyk : y' - k = 0 := by omega
          rw [if_pos hcase2,
            if_pos (by simp only [List.length_cons]; rw [hyk, List.getD_cons_zero]; omega)]
          rw [hyk, List.getD_cons_zero, Nat.sub_zero]
        · rw [if_neg hcase2, if_neg]
          simp only [List.length_cons]
          intro hco
          rcases Nat.lt_or_ge y' (k + 1) with hyy | hyy
          · have hyk : y' - k = 0 := by omega
            rw [hyk, List.getD_cons_zero] at hco
            exact hcase2 ⟨by omega, by omega, by omega⟩
          · have hyk : y' - k = (y' - (k + 1)) + 1 := by omega
            rw [hyk, List.getD_cons_succ] at hco
            exact hcase ⟨by omega, by omega, hco.2.2⟩

/-- Reading at the boundary of an append. -/
theorem getD_append_boundary {α : Type} (l1 l2 : List α) (a : α) (d : α) :
    (l1 ++ a :: l2).getD l1.length d = a := by
  rw [List.getD_eq_getElem _ _ (by simp)]
  exact List.getElem_of_append rfl rfl

/-- Filtering a constant `some` over a range is replication. -/
theorem filterMap_const_some (n : ℕ) (c : Char) :
    (List.range n).filterMap (fun _ => some c) = List.replicate n c := by
  rw [show (fun (_ : ℕ) => some c) = some ∘ (fun _ => c) from rfl,
    List.filterMap_eq_map]
  simp [List.map_const]

set_option maxHeartbeats 1000000 in
/-- CLAIM C4 (amended): for every grid the Generator produces (any
`w, h ≥ 1`, any carving schedule), text → parse → text is not the
identity but appends exactly one extra row of Path characters, of the
width of the first text line: the parser turns the empty piece after
the final line break of the serialized text into an extra all-zero
(Path) matrix row. -/
theorem c4_amended_roundtrip (w h : ℕ) (hw : 1 ≤ w) (hh : 1 ≤ h)
    (popO chooseO : ℕ → ℕ) :
    ∃ mat' : Mat,
      string_to_array_maze (array_to_string_maze (makeMazeMat w h popO chooseO))
        = some mat' ∧
      array_to_string_maze mat' =
        array_to_string_maze (makeMazeMat w h popO chooseO) ++
        List.replicate (((array_to_string_maze
          (makeMazeMat w h popO chooseO)).splitOn '\n').headD []).length ' '
        ++ ['\n'] := by
  have hbin := binVals_makeMazeMat w h popO chooseO
  set mat := makeMazeMat w h popO chooseO with hmat
  have hlines := splitOn_a2s mat
  have hrowlen : ∀ y : ℕ, (rowChars mat y).length = mat.cols := fun y =>
    length_rowChars fun x _ => charOfVal_isSome_of_bin (hbin y x)
  have hlineslen : ((List.range mat.rows).map (rowChars mat) ++ [[]]).length
      = mat.rows + 1 := by simp
  have hC0 : mat.rows ≠ 0 →
      ((((List.range mat.rows).map (rowChars mat) ++ [[]]).headD []).length)
        = mat.cols := by
    intro hR
    cases hR' : mat.rows with
    | zero => exact absurd hR' hR
    | succ n =>
      rw [List.range_succ_eq_map]
      simp only [List.map_cons, List.cons_append, List.headD_cons]
      exact hrowlen 0
  have hlen0 : ∀ l ∈ (List.range mat.rows).map (rowChars mat) ++ [[]],
      (∀ c ∈ l, (valOfChar c).isSome) ∧
        l.length ≤ (((List.range mat.rows).map (rowChars mat) ++ [[]]).headD []).length := by
    intro l hl
    rcases List.mem_append.mp hl with hl | hl
    · rcases List.mem_map.mp hl with ⟨y, hy, rfl⟩
      have hR : mat.rows ≠ 0 := by
        intro h0
        rw [h0] at hy
        simp at hy
      refine ⟨?_, by rw [hC0 hR, hrowlen y]⟩
      intro c hc
      rcases List.mem_filterMap.mp hc with ⟨x, _, hx⟩
      rw [valOfChar_charOfVal hx]
      rfl
    · rcases List.mem_singleton.mp hl with rfl
      exact ⟨fun c hc => absurd hc (List.not_mem_nil c), Nat.zero_le _⟩
  rcases parseLines_go ((List.range mat.rows).map (rowChars mat) ++ [[]]) 0
    ⟨((List.range mat.rows).map (rowChars mat) ++ [[]]).length,
      (((List.range mat.rows).map (rowChars mat) ++ [[]]).headD []).length,
      fun _ _ => 0⟩ hlen0 (by simp) with ⟨m', hfold, hr', hc', hd'⟩
  have hs2a : string_to_array_maze (array_to_string_maze mat) = some m' := by
    show ((array_to_string_maze mat).splitOn '\n').enum.foldlM
      (fun acc p => parsePutLine acc p.1 p.2)
      ⟨((array_to_string_maze mat).splitOn '\n').length,
        (((array_to_string_maze mat).splitOn '\n').headD []).length,
        fun _ _ => 0⟩ = some m'
    rw [hlines]
    exact hfold
  refine ⟨m', hs2a, ?_⟩
  have hgetDrow : ∀ y : ℕ, y < mat.rows →
      ((List.range mat.rows).map (rowChars mat) ++ [[]]).getD y [] =
        rowChars mat y := by
    intro y hy
    rw [List.getD_append _ _ _ _ (by simpa using hy)]
    exact getD_map_range _ _ hy
  have hgetDlast : ((List.range mat.rows).map (rowChars mat) ++ [[]]).getD
      mat.rows [] = [] := by
    simpa using
      getD_append_boundary ((List.range mat.rows).map (rowChars mat)) [] [] []
  have hdata : ∀ y x : ℕ, y < mat.rows → x < mat.cols →
      m'.data y x = mat.data y x := by
    intro y x hy hx
    rw [hd' y x]
    simp only [Nat.sub_zero]
    rw [if_pos]
    · rw [hgetDrow y hy]
      have hsome := charOfVal_isSome_of_bin (hbin y x)
      rcases Option.isSome_iff_exists.mp hsome with ⟨c, hc⟩
      rw [rowChars_eq_map fun x' _ => charOfVal_isSome_of_bin (hbin y x'),
        getD_map_range _ _ hx, hc]
      show (valOfChar ((some c).getD ' ')).getD 0 = mat.data y x
      rw [show (some c).getD ' ' = c from rfl, valOfChar_charOfVal hc]
      rfl
    · refine ⟨Nat.zero_le y, ?_, ?_⟩
      · rw [hlineslen]
        omega
      · rw [hgetDrow y hy, hrowlen y]
        exact hx
  have hrowsm' : m'.rows = mat.rows + 1 := by rw [hr', hlineslen]
  have hrowChars_eq : ∀ y : ℕ, y < mat.rows →
      rowChars m' y = rowChars mat y := by
    intro y hy
    have hR : mat.rows ≠ 0 := by omega
    unfold rowChars
    rw [hc', hC0 hR]
    refine List.filterMap_congr ?_
    intro x hx
    rw [hdata y x hy (List.mem_range.mp hx)]
  have hrowChars_last : rowChars m' mat.rows =
      List.replicate m'.cols ' ' := by
    unfold rowChars
    rw [show (fun x => charOfVal (m'.data mat.rows x)) = fun _ => some ' ' from ?_]
    · exact filterMap_const_some _ _
    · funext x
      rw [hd' mat.rows x]
      rw [if_neg fun hco => by
        simp only [Nat.sub_zero] at hco
        rw [hgetDlast] at hco
        have := hco.2.2
        simp at this]
      rfl
  have hrange : List.range (mat.rows + 1) = List.range mat.rows ++ [mat.rows] := by
    simpa using List.range_succ (n := mat.rows)
  show List.flatten ((List.range m'.rows).map fun y => rowChars m' y ++ ['\n']) = _
  rw [hrowsm', hrange, List.map_append, List.flatten_append]
  rw [List.map_eq_map_iff.mpr (fun y hy => by
    rw [hrowChars_eq y (List.mem_range.mp hy)])]
  rw [show (List.map (fun y => rowChars m' y ++ ['\n']) [mat.rows]).flatten =
    rowChars m' mat.rows ++ ['\n'] from by simp]
  rw [hrowChars_last, hc', hlines, List.append_assoc]
  congr 1

/-- CLAIM C4 (witness): the amended round-trip theorem at `w = h = 3`
with the constant-zero oracles. -/
theorem c4_amended_roundtrip_witness :
    ∃ mat' : Mat,
      string_to_array_maze (array_to_string_maze (makeMazeMat 3 3 zeroO zeroO))
        = some mat' ∧
      array_to_string_maze mat' =
        array_to_string_maze (makeMazeMat 3 3 zeroO zeroO) ++
        List.replicate (((array_to_string_maze
          (makeMazeMat 3 3 zeroO zeroO)).splitOn '\n').headD []).length ' '
        ++ ['\n'] :=
  c4_amended_roundtrip 3 3 (by decide) (by decide) zeroO zeroO

/-- CLAIM C5 (counterexample): `c5maze` contains the character `Z`,
which is outside the seven-character vocabulary, yet `solve` does not
fail at all, let alone with an explicit `MalformedMaze` error before
exploration: the parser silently reads `Z` as Path, the setup
succeeds, the frontier is popped three times and the run ends by
reaching End. -/
theorem c5_counterexample :
    (∀ e ∈ codes, e.2.1 ≠ 'Z') ∧ 'Z' ∈ c5maze ∧
    (solveInit c5maze .astar).toBool = true ∧
    outcomeOf (iterateN idShuffle 3 c5state) = some Outcome.reachedEnd ∧
    (stateOf (iterateN idShuffle 3 c5state)).step = 3 := by
  refine ⟨by decide, by decide, by decide, by decide, by decide⟩

/-- CLAIM C6 (counterexample): `c6maze` is a well-formed maze text
(characters in the vocabulary, exactly one Start and one End), yet the
solve loop neither pops End nor exhausts its frontier: during the
first expansion it reads column 2 of a two-column grid and dies with
an index error. -/
theorem c6_counterexample :
    (c6maze.count '&' = 1 ∧ c6maze.count '!' = 1 ∧
      ∀ c ∈ c6maze, c = '\n' ∨ ∃ e ∈ codes, e.2.1 = c) ∧
    (solveInit c6maze .astar).toBool = true ∧
    outcomeOf (iterateN idShuffle 1 c6state) = some Outcome.oob ∧
    Outcome.oob ≠ Outcome.reachedEnd ∧ Outcome.oob ≠ Outcome.exhausted := by
  refine ⟨by decide, by decide, by decide, by decide, by decide⟩

/-- Counter bookkeeping of one loop iteration: a continuing iteration
adds one to `step` and `explored` and two to `walked`; an iteration
that pops End adds one to `step`, `explored` and `walked`;
`max_depth` tracks the `step` counter in both cases. -/
theorem solveStep_counters (σ : ℕ → List (ℤ × ℤ) → List (ℤ × ℤ))
    {s t : SState} :
    (solveStep σ s = .run t →
      t.step = s.step + 1 ∧ t.explored = s.explored + 1 ∧
      t.maxDepth = (if s.step + 1 > s.maxDepth then s.step + 1 else s.maxDepth) ∧
      t.walked = s.walked + 2) ∧
    (solveStep σ s = .term .reachedEnd t →
      t.step = s.step + 1 ∧ t.explored = s.explored + 1 ∧
      t.maxDepth = (if s.step + 1 > s.maxDepth then s.step + 1 else s.maxDepth) ∧
      t.walked = s.walked + 1) := by
  unfold solveStep
  by_cases hemp : s.stack = []
  · rw [if_pos hemp]
    constructor
    · intro h
      cases h
    · intro h
      cases h
  · rw [if_neg hemp]
    dsimp only
    rcases hw1 : Mat.writePy s.mat (if s.strat = Strat.bfs then s.stack.headD (0, 0)
        else s.stack.getLastD (0, 0)) 7 with _ | mat1
    · constructor
      · intro h
        cases h
      · intro h
        cases h
    · dsimp only
      by_cases hend : (if s.strat = Strat.bfs then s.stack.headD (0, 0)
          else s.stack.getLastD (0, 0)) = s.stop
      · rw [if_pos hend]
        rcases hw2 : Mat.writePy mat1 s.start 2 with _ | mat2
        · constructor
          · intro h
            cases h
          · intro h
            cases h
        · dsimp only
          rcases hw3 : mat2.writePy (if s.strat = Strat.bfs then s.stack.headD (0, 0)
              else s.stack.getLastD (0, 0)) 3 with _ | mat3
          · constructor
            · intro h
              cases h
            · intro h
              cases h
          · dsimp only
            constructor
            · intro h
              cases h
            · intro h
              cases h
              exact ⟨rfl, rfl, rfl, rfl⟩
      · rw [if_neg hend]
        rcases hw4 : Mat.writePy mat1 (if s.strat = Strat.bfs then s.stack.headD (0, 0)
            else s.stack.getLastD (0, 0)) 5 with _ | mat4
        · constructor
          · intro h
            cases h
          · intro h
            cases h
        · dsimp only
          rcases hsc : scanNbrs mat4
              (if s.strat = Strat.bfs then s.stack.headD (0, 0)
                else s.stack.getLastD (0, 0)).1
              (if s.strat = Strat.bfs then s.stack.headD (0, 0)
                else s.stack.getLastD (0, 0)).2 with _ | next
          · constructor
            · intro h
              cases h
            · intro h
              cases h
          · dsimp only
            constructor
            · intro h
              cases h
              exact ⟨rfl, rfl, rfl, rfl⟩
            · intro h
              cases h

/-- Counter invariant of the solve loop, propagated over any number of
iterations from any state whose counters are consistent. -/
theorem iterateN_counters (σ : ℕ → List (ℤ × ℤ) → List (ℤ × ℤ)) (n : ℕ) :
    ∀ s : SState,
      s.explored = s.step ∧ s.maxDepth = s.step ∧ s.walked = 2 * s.step →
      (∀ s', iterateN σ n s = .run s' →
        s'.explored = s'.step ∧ s'.maxDepth = s'.step ∧
          s'.walked = 2 * s'.step ∧ s'.step = s.step + n) ∧
      (∀ s', iterateN σ n s = .term .reachedEnd s' →
        s'.explored = s'.step ∧ s'.maxDepth = s'.step ∧
          s'.walked = 2 * s'.step - 1 ∧ 1 ≤ s'.step ∧ s'.step ≤ s.step + n) := by
  induction n with
  | zero =>
    intro s hInv
    constructor
    · intro s' hs'
      cases hs'
      exact ⟨hInv.1, hInv.2.1, hInv.2.2, rfl⟩
    · intro s' hs'
      cases hs'
  | succ n ih =>
    intro s hInv
    have hit : iterateN σ (n + 1) s = match solveStep σ s with
        | .run t => iterateN σ n t
        | t => t := rfl
    constructor
    · intro s' hs'
      rw [hit] at hs'
      rcases hso : solveStep σ s with ⟨t⟩ | ⟨o, t⟩ <;> rw [hso] at hs'
      · rcases (solveStep_counters σ).1 hso with ⟨h1, h2, h3, h4⟩
        have hInv' : t.explored = t.step ∧ t.maxDepth = t.step ∧
            t.walked = 2 * t.step := by
          refine ⟨by omega, ?_, by omega⟩
          rw [h3, h1, if_pos (by omega)]
        have := (ih t hInv').1 s' hs'
        refine ⟨this.1, this.2.1, this.2.2.1, by omega⟩
      · cases hs'
    · intro s' hs'
      rw [hit] at hs'
      rcases hso : solveStep σ s with ⟨t⟩ | ⟨o, t⟩ <;> rw [hso] at hs'
      · rcases (solveStep_counters σ).1 hso with ⟨h1, h2, h3, h4⟩
        have hInv' : t.explored = t.step ∧ t.maxDepth = t.step ∧
            t.walked = 2 * t.step := by
          refine ⟨by omega, ?_, by omega⟩
          rw [h3, h1, if_pos (by omega)]
        have := (ih t hInv').2 s' hs'
        refine ⟨this.1, this.2.1, this.2.2.1, this.2.2.2.1, by omega⟩
      · cases hs'
        rcases (solveStep_counters σ).2 hso with ⟨h1, h2, h3, h4⟩
        refine ⟨by omega, ?_, by omega, by omega, by omega⟩
        rw [h3, h1, if_pos (by omega)]

/-- CLAIM C10: starting from any successful setup, after the `k`-th
frontier pop (any strategy, any shuffle outcome) the counters satisfy
`step = explored = max_depth = k`, with `walked = 2k` while the run
continues (the popped cell was not End) and `walked = 2k - 1` when the
`k`-th popped cell is End. -/
theorem c10_counters (σ : ℕ → List (ℤ × ℤ) → List (ℤ × ℤ))
    (maze : List Char) (strat : Strat) (s0 : SState)
    (h0 : solveInit maze strat = .ok s0) (n : ℕ) :
    (∀ s', iterateN σ n s0 = .run s' →
      s'.step = n ∧ s'.explored = n ∧ s'.maxDepth = n ∧ s'.walked = 2 * n) ∧
    (∀ s', iterateN σ n s0 = .term .reachedEnd s' →
      s'.explored = s'.step ∧ s'.maxDepth = s'.step ∧
        s'.walked = 2 * s'.step - 1 ∧ 1 ≤ s'.step ∧ s'.step ≤ n) := by
  have hc0 : s0.step = 0 ∧ s0.explored = 0 ∧ s0.maxDepth = 0 ∧ s0.walked = 0 := by
    unfold solveInit at h0
    rcases hpm : string_to_array_maze maze with _ | mat
    · rw [hpm] at h0; cases h0
    · rw [hpm] at h0
      dsimp only at h0
      rcases hst : mat.findVal 2 with _ | st
      · rw [hst] at h0; cases h0
      · rw [hst] at h0
        dsimp only at h0
        rcases hen : mat.findVal 3 with _ | en
        · rw [hen] at h0; cases h0
        · rw [hen] at h0
          dsimp only at h0
          cases h0
          exact ⟨rfl, rfl, rfl, rfl⟩
  have hbase := iterateN_counters σ n s0 (by omega)
  constructor
  · intro s' hs'
    have := hbase.1 s' hs'
    omega
  · intro s' hs'
    have := hbase.2 s' hs'
    omega

/-- CLAIM C10 (witness): the counter theorem on the concrete maze
`c5maze` under the `'a*'` strategy, whose run reaches End at the third
pop. -/
theorem c10_counters_witness :
    (stateOf (iterateN idShuffle 3 c5state)).explored =
        (stateOf (iterateN idShuffle 3 c5state)).step ∧
      (stateOf (iterateN idShuffle 3 c5state)).maxDepth =
        (stateOf (iterateN idShuffle 3 c5state)).step ∧
      (stateOf (iterateN idShuffle 3 c5state)).walked =
        2 * (stateOf (iterateN idShuffle 3 c5state)).step - 1 ∧
      1 ≤ (stateOf (iterateN idShuffle 3 c5state)).step ∧
      (stateOf (iterateN idShuffle 3 c5state)).step ≤ 3 :=
  (c10_counters idShuffle c5maze .astar c5state rfl 3).2
    (stateOf (iterateN idShuffle 3 c5state)) rfl

/-- CLAIM C7: under the `'a*'` strategy, a continuing iteration that
pops the last frontier entry `c` leaves the remaining frontier
untouched and in order, and appends to its end exactly the newly
discovered admissible neighbours of `c` (the result of the neighbour
scan on the updated grid), as a permutation sorted ascending by
Euclidean distance `√((Δx)² + (Δy)²)` to the End cell; entries already
in the frontier are never reordered or re-prioritised. -/
theorem c7_astar_append_sorted (σ : ℕ → List (ℤ × ℤ) → List (ℤ × ℤ))
    (s : SState) (pre : List (ℤ × ℤ)) (c : ℤ × ℤ)
    (hstrat : s.strat = .astar) (hstack : s.stack = pre ++ [c])
    (s' : SState) (hrun : solveStep σ s = .run s') :
    ∃ nb : List (ℤ × ℤ),
      scanNbrs s'.mat c.1 c.2 = some nb ∧
      s'.stack = pre ++ sortByDist s.stop nb ∧
      (sortByDist s.stop nb).Perm nb ∧
      List.Sorted
        (fun p q => Real.sqrt ((sqDistTo s.stop p : ℤ) : ℝ) ≤
          Real.sqrt ((sqDistTo s.stop q : ℤ) : ℝ))
        (sortByDist s.stop nb) := by
  have hne : s.stack ≠ [] := by
    rw [hstack]
    simp
  have hcur : (if s.strat = Strat.bfs then s.stack.headD (0, 0)
      else s.stack.getLastD (0, 0)) = c := by
    rw [hstrat, if_neg (by decide), hstack]
    exact List.getLastD_concat ..
  have hdrop : (if s.strat = Strat.bfs then s.stack.tail
      else s.stack.dropLast) = pre := by
    rw [hstrat, if_neg (by decide), hstack]
    exact List.dropLast_concat ..
  unfold solveStep at hrun
  rw [if_neg hne] at hrun
  dsimp only at hrun
  rw [hcur, hdrop] at hrun
  rcases hw1 : Mat.writePy s.mat c 7 with _ | mat1 <;> rw [hw1] at hrun
  · cases hrun
  · dsimp only at hrun
    by_cases hend : c = s.stop
    · rw [if_pos hend] at hrun
      rcases hw2 : Mat.writePy mat1 s.start 2 with _ | mat2 <;> rw [hw2] at hrun
      · cases hrun
      · dsimp only at hrun
        rcases hw3 : mat2.writePy c 3 with _ | mat3 <;> rw [hw3] at hrun
        · cases hrun
        · cases hrun
    · rw [if_neg hend] at hrun
      rcases hw4 : Mat.writePy mat1 c 5 with _ | mat4 <;> rw [hw4] at hrun
      · cases hrun
      · dsimp only at hrun
        rcases hsc : scanNbrs mat4 c.1 c.2 with _ | next <;> rw [hsc] at hrun
        · cases hrun
        · dsimp only at hrun
          rw [hstrat] at hrun
          rw [if_pos rfl] at hrun
          cases hrun
          refine ⟨next, hsc, rfl, List.perm_insertionSort _ next, ?_⟩
          have hs : List.Sorted
              (fun p q => sqDistTo s.stop p ≤ sqDistTo s.stop q)
              (sortByDist s.stop next) := by
            haveI ht : IsTotal (ℤ × ℤ)
                (fun p q => sqDistTo s.stop p ≤ sqDistTo s.stop q) :=
              ⟨fun a b => le_total _ _⟩
            haveI htr : IsTrans (ℤ × ℤ)
                (fun p q => sqDistTo s.stop p ≤ sqDistTo s.stop q) :=
              ⟨fun a b d h1 h2 => le_trans h1 h2⟩
            exact List.sorted_insertionSort _ next
          refine hs.imp ?_
          intro p q hpq
          exact Real.sqrt_le_sqrt (by exact_mod_cast hpq)

/-- CLAIM C7 (witness): the `'a*'` expansion theorem at the first
iteration on the concrete maze `c5maze`. -/
theorem c7_astar_append_sorted_witness :
    ∃ nb : List (ℤ × ℤ),
      scanNbrs (stateOf (iterateN idShuffle 1 c5state)).mat
        ((1 : ℤ), (1 : ℤ)).1 ((1 : ℤ), (1 : ℤ)).2 = some nb ∧
      (stateOf (iterateN idShuffle 1 c5state)).stack =
        [] ++ sortByDist c5state.stop nb ∧
      (sortByDist c5state.stop nb).Perm nb ∧
      List.Sorted
        (fun p q => Real.sqrt ((sqDistTo c5state.stop p : ℤ) : ℝ) ≤
          Real.sqrt ((sqDistTo c5state.stop q : ℤ) : ℝ))
        (sortByDist c5state.stop nb) :=
  c7_astar_append_sorted idShuffle c5state [] (1, 1) rfl rfl
    (stateOf (iterateN idShuffle 1 c5state)) rfl

/-- Indices produced by Python index resolution are in range. -/
theorem pyIdx_lt {n : ℕ} {i : ℤ} {j : ℕ} (h : pyIdx n i = some j) : j < n := by
  unfold pyIdx at h
  split_ifs at h <;> cases h <;> omega

/-- Nonnegative in-range indices resolve to themselves. -/
theorem pyIdx_of_nonneg {n : ℕ} {i : ℤ} (h0 : 0 ≤ i) (h1 : i < (n : ℤ)) :
    pyIdx n i = some i.toNat := by
  unfold pyIdx
  rw [if_pos ⟨h0, h1⟩]

/-- Characterisation of a successful matrix write. -/
theorem writePy_eq {m : Mat} {p : ℤ × ℤ} {v : ℕ} {m' : Mat}
    (h : m.writePy p v = some m') :
    ∃ cy cx : ℕ, pyIdx m.rows p.1 = some cy ∧ pyIdx m.cols p.2 = some cx ∧
      m' = m.upd cy cx v ∧ cy < m.rows ∧ cx < m.cols := by
  unfold Mat.writePy at h
  rcases h1 : pyIdx m.rows p.1 with _ | cy <;> rw [h1] at h
  · cases h
  · rcases h2 : pyIdx m.cols p.2 with _ | cx <;> rw [h2] at h
    · cases h
    · cases h
      exact ⟨cy, cx, rfl, rfl, rfl, pyIdx_lt h1, pyIdx_lt h2⟩

/-- Characterisation of a successful matrix read. -/
theorem readPy_eq {m : Mat} {p : ℤ × ℤ} {v : ℕ}
    (h : m.readPy p = some v) :
    ∃ cy cx : ℕ, pyIdx m.rows p.1 = some cy ∧ pyIdx m.cols p.2 = some cx ∧
      v = m.data cy cx := by
  unfold Mat.readPy at h
  rcases h1 : pyIdx m.rows p.1 with _ | cy <;> rw [h1] at h
  · cases h
  · rcases h2 : pyIdx m.cols p.2 with _ | cx <;> rw [h2] at h
    · cases h
    · cases h
      exact ⟨cy, cx, rfl, rfl, rfl⟩

/-- A pointwise update does not change how indices resolve, so a read
after an update sees the new value exactly at positions resolving to
the updated cell. -/
theorem readPy_upd (m : Mat) (cy cx v : ℕ) (q : ℤ × ℤ) :
    (m.upd cy cx v).readPy q =
      match pyIdx m.rows q.1, pyIdx m.cols q.2 with
      | some y, some x => some (if y = cy then if x = cx then v else m.data y x
          else m.data y x)
      | _, _ => none := by
  rfl

/-- The grid a continuing iteration carries differs from the previous
grid in exactly one cell, the popped one, which now holds Visited. -/
theorem double_upd_data (m : Mat) (cy cx : ℕ) (y x : ℕ) :
    ((m.upd cy cx 7).upd cy cx 5).data y x =
      (m.upd cy cx 5).data y x := by
  unfold Mat.upd
  dsimp only
  by_cases h1 : y = cy <;> by_cases h2 : x = cx <;> simp [h1, h2]

/-- Cells a successful neighbour scan returns: each one was read
successfully and holds neither Wall nor Visited, and is one of the
four candidates. -/
theorem scanNbrs_mem {m : Mat} {y x : ℤ} {l : List (ℤ × ℤ)}
    (h : scanNbrs m y x = some l) :
    ∀ q ∈ l, (∃ v, m.readPy q = some v ∧ ¬(v = 1 ∨ v = 5)) ∧
      q ∈ [(y - 1, x), (y, x - 1), (y + 1, x), (y, x + 1)] := by
  have go : ∀ (cand acc : List (ℤ × ℤ)) (l : List (ℤ × ℤ)),
      cand.foldlM (fun acc p =>
        match m.readPy p with
        | none => none
        | some v => if v = 1 ∨ v = 5 then some acc else some (acc ++ [p])) acc
        = some l →
      (∀ q ∈ acc, (∃ v, m.readPy q = some v ∧ ¬(v = 1 ∨ v = 5)) ∧
        (q ∈ cand ∨ q ∈ acc)) →
      ∀ q ∈ l, (∃ v, m.readPy q = some v ∧ ¬(v = 1 ∨ v = 5)) ∧
        (q ∈ cand ∨ q ∈ acc) := by
    intro cand
    induction cand with
    | nil =>
      intro acc l hf hacc
      cases hf
      exact hacc
    | cons p cand ih =>
      intro acc l hf hacc
      replace hf : (match m.readPy p with
          | none => none
          | some v => if v = 1 ∨ v = 5 then some acc
            else some (acc ++ [p])) >>= (fun acc' =>
          cand.foldlM (fun acc p =>
            match m.readPy p with
            | none => none
            | some v => if v = 1 ∨ v = 5 then some acc
              else some (acc ++ [p])) acc') = some l := hf
      rcases hr : m.readPy p with _ | v <;> rw [hr] at hf
      · cases hf
      · dsimp only at hf
        by_cases hb : v = 1 ∨ v = 5
        · rw [if_pos hb] at hf
          have hacc' : ∀ q ∈ acc,
              (∃ v, m.readPy q = some v ∧ ¬(v = 1 ∨ v = 5)) ∧
                (q ∈ cand ∨ q ∈ acc) := by
            intro q hq
            refine ⟨(hacc q hq).1, ?_⟩
            rcases (hacc q hq).2 with hc | hc
            · rcases List.mem_cons.mp hc with rfl | hc
              · rcases (hacc q hq).1 with ⟨v', hv', hnb⟩
                rw [hr] at hv'
                cases hv'
                exact absurd hb hnb
              · exact Or.inl hc
            · exact Or.inr hc
          intro q hq
          rcases ih acc l hf hacc' q hq with ⟨h1, h2⟩
          refine ⟨h1, ?_⟩
          rcases h2 with h2 | h2
          · exact Or.inl (List.mem_cons_of_mem p h2)
          · exact Or.inr h2
        · rw [if_neg hb] at hf
          have hacc' : ∀ q ∈ acc ++ [p],
              (∃ v, m.readPy q = some v ∧ ¬(v = 1 ∨ v = 5)) ∧
                (q ∈ cand ∨ q ∈ acc ++ [p]) := by
            intro q hq
            rcases List.mem_append.mp hq with hq' | hq'
            · refine ⟨(hacc q hq').1, ?_⟩
              rcases (hacc q hq').2 with hc | hc
              · rcases List.mem_cons.mp hc with rfl | hc
                · exact Or.inr (List.mem_append_right _ (by simp))
                · exact Or.inl hc
              · exact Or.inr (List.mem_append_left _ hc)
            · rcases List.mem_singleton.mp hq' with rfl
              exact ⟨⟨v, hr, hb⟩, Or.inr (List.mem_append_right _ (by simp))⟩
          intro q hq
          rcases ih (acc ++ [p]) l hf hacc' q hq with ⟨h1, h2⟩
          refine ⟨h1, ?_⟩
          rcases h2 with h2 | h2
          · exact Or.inl (List.mem_cons_of_mem p h2)
          · rcases List.mem_append.mp h2 with h2' | h2'
            · exact Or.inr h2'
            · rcases List.mem_singleton.mp h2' with rfl
              exact Or.inl (List.mem_cons_self _ _)
  intro q hq
  have := go [(y - 1, x), (y, x - 1), (y + 1, x), (y, x + 1)] [] l h
    (fun q hq => absurd hq (List.not_mem_nil q)) q hq
  exact ⟨this.1, by
    rcases this.2 with h2 | h2
    · exact h2
    · exact absurd h2 (List.not_mem_nil q)⟩

/-- A nonempty list is its default head followed by its tail. -/
theorem headD_cons_tail {α : Type} (l : List α) (d : α) (h : l ≠ []) :
    l.headD d :: l.tail = l := by
  cases l with
  | nil => exact absurd rfl h
  | cons a l => rfl

/-- A nonempty list is its front followed by its default last
element. -/
theorem dropLast_concat_getLastD {α : Type} :
    ∀ (l : List α) (d : α), l ≠ [] → l.dropLast ++ [l.getLastD d] = l := by
  intro l
  induction l with
  | nil => intro d h; exact absurd rfl h
  | cons a l ih =>
    intro d _
    cases l with
    | nil => rfl
    | cons b l =>
      have := ih d (by simp)
      simpa using this

/-- Reads only depend on dimensions and cell data. -/
theorem readPy_congr {m₁ m₂ : Mat} (hr : m₁.rows = m₂.rows)
    (hc : m₁.cols = m₂.cols) (hd : ∀ y x, m₁.data y x = m₂.data y x)
    (q : ℤ × ℤ) : m₁.readPy q = m₂.readPy q := by
  unfold Mat.readPy
  rw [hr, hc]
  rcases pyIdx m₂.rows q.1 with _ | y <;> rcases pyIdx m₂.cols q.2 with _ | x <;>
    simp [hd]

/-- The termination measure of the solve loop drops lexicographically
at every continuing iteration: a pop either marks a fresh cell Visited
(the count of unblocked cells drops) or revisits a blocked cell (the
count of blocked frontier entries drops, everything else equal), and
newly pushed entries all point at unblocked cells. -/
theorem solveStep_measure (σ : ℕ → List (ℤ × ℤ) → List (ℤ × ℤ))
    (hσ : ∀ k l, (σ k l).Perm l) {s t : SState}
    (h : solveStep σ s = .run t) :
    Prod.Lex (· < ·) (· < ·) (solveMeasure t) (solveMeasure s) := by
  unfold solveStep at h
  by_cases hemp : s.stack = []
  · rw [if_pos hemp] at h
    cases h
  · rw [if_neg hemp] at h
    dsimp only at h
    rcases hw1 : Mat.writePy s.mat
      (if s.strat = Strat.bfs then s.stack.headD (0, 0)
        else s.stack.getLastD (0, 0)) 7 with _ | mat1 <;> rw [hw1] at h
    · cases h
    · dsimp only at h
      by_cases hend : (if s.strat = Strat.bfs then s.stack.headD (0, 0)
          else s.stack.getLastD (0, 0)) = s.stop
      · rw [if_pos hend] at h
        rcases hw2 : Mat.writePy mat1 s.start 2 with _ | mat2 <;> rw [hw2] at h
        · cases h
        · dsimp only at h
          rcases hw3 : mat2.writePy (if s.strat = Strat.bfs
              then s.stack.headD (0, 0) else s.stack.getLastD (0, 0)) 3
              with _ | mat3 <;> rw [hw3] at h
          · cases h
          · cases h
      · rw [if_neg hend] at h
        rcases hw4 : Mat.writePy mat1 (if s.strat = Strat.bfs
            then s.stack.headD (0, 0) else s.stack.getLastD (0, 0)) 5
            with _ | mat4 <;> rw [hw4] at h
        · cases h
        · dsimp only at h
          rcases hsc : scanNbrs mat4 (if s.strat = Strat.bfs
              then s.stack.headD (0, 0) else s.stack.getLastD (0, 0)).1
              (if s.strat = Strat.bfs then s.stack.headD (0, 0)
                else s.stack.getLastD (0, 0)).2 with _ | next <;> rw [hsc] at h
          · cases h
          · cases h
            rcases writePy_eq hw1 with ⟨cy, cx, hpy, hpx, hm1, hylt, hxlt⟩
            rcases writePy_eq hw4 with ⟨cy', cx', hpy', hpx', hm4, _, _⟩
            rw [hm1, Mat.upd_rows] at hpy'
            rw [hm1, Mat.upd_cols] at hpx'
            have hcy : cy = cy' := Option.some.inj (hpy.symm.trans hpy')
            have hcx : cx = cx' := Option.some.inj (hpx.symm.trans hpx')
            subst hcy hcx
            rw [hm1] at hm4
            have hd4 : ∀ y x, mat4.data y x = (s.mat.upd cy cx 5).data y x := by
              intro y x
              rw [hm4]
              exact double_upd_data s.mat cy cx y x
            have hrows4 : mat4.rows = s.mat.rows := by rw [hm4]; rfl
            have hcols4 : mat4.cols = s.mat.cols := by rw [hm4]; rfl
            have hread4 : ∀ q, mat4.readPy q = (s.mat.upd cy cx 5).readPy q :=
              readPy_congr hrows4 hcols4 hd4
            have hcurread : s.mat.readPy (if s.strat = Strat.bfs
                then s.stack.headD (0, 0)
                else s.stack.getLastD (0, 0)) = some (s.mat.data cy cx) := by
              unfold Mat.readPy
              rw [hpy, hpx]
            have hnextperm : (if s.strat = Strat.astar
                then sortByDist s.stop next
                else σ s.step next).Perm next := by
              by_cases ha : s.strat = Strat.astar
              · rw [if_pos ha]
                exact List.perm_insertionSort _ next
              · rw [if_neg ha]
                exact hσ s.step next
            have hnext0 : (if s.strat = Strat.astar
                then sortByDist s.stop next
                else σ s.step next).countP (blockedAt mat4) = 0 := by
              rw [hnextperm.countP_eq, List.countP_eq_zero]
              intro q hq
              rcases (scanNbrs_mem hsc q hq).1 with ⟨v, hv, hnb⟩
              unfold blockedAt
              rw [hv]
              simpa using hnb
            show Prod.Lex (· < ·) (· < ·)
              (Ucount mat4, Vcount mat4
                ((if s.strat = Strat.bfs then s.stack.tail
                  else s.stack.dropLast) ++
                  (if s.strat = Strat.astar then sortByDist s.stop next
                    else σ s.step next)))
              (Ucount s.mat, Vcount s.mat s.stack)
            by_cases hv0 : s.mat.data cy cx = 1 ∨ s.mat.data cy cx = 5
            · -- blocked pop: unblocked-cell count unchanged, blocked-entry
              -- count drops by one
              have hU : Ucount mat4 = Ucount s.mat := by
                unfold Ucount
                rw [hrows4, hcols4]
                congr 1
                refine Finset.filter_congr ?_
                intro q hq
                rw [hd4 q.1 q.2]
                unfold Mat.upd
                dsimp only
                by_cases h1 : q.1 = cy <;> by_cases h2 : q.2 = cx <;>
                  simp [h1, h2]
                rcases hv0 with h5 | h5 <;> simp [h5]
              have hrest : (if s.strat = Strat.bfs then s.stack.tail
                  else s.stack.dropLast).countP (blockedAt mat4) =
                  (if s.strat = Strat.bfs then s.stack.tail
                    else s.stack.dropLast).countP (blockedAt s.mat) := by
                refine List.countP_congr ?_
                intro q _
                unfold blockedAt
                rw [hread4 q, readPy_upd]
                unfold Mat.readPy
                generalize pyIdx s.mat.rows q.1 = o1
                generalize pyIdx s.mat.cols q.2 = o2
                rcases o1 with _ | a <;> rcases o2 with _ | b
                · rfl
                · rfl
                · rfl
                · dsimp only
                  by_cases h1 : a = cy <;> by_cases h2 : b = cx <;>
                    simp [h1, h2]
                  rcases hv0 with h5 | h5 <;> simp [h5]
              have hcurblocked : blockedAt s.mat (if s.strat = Strat.bfs
                  then s.stack.headD (0, 0)
                  else s.stack.getLastD (0, 0)) = true := by
                unfold blockedAt
                rw [hcurread]
                rcases hv0 with h5 | h5 <;> simp [h5]
              have hVs : Vcount s.mat s.stack =
                  (if s.strat = Strat.bfs then s.stack.tail
                    else s.stack.dropLast).countP (blockedAt s.mat) + 1 := by
                unfold Vcount
                by_cases hbfs : s.strat = Strat.bfs
                · rw [if_pos hbfs] at hcurblocked ⊢
                  conv_lhs => rw [← headD_cons_tail s.stack (0, 0) hemp]
                  rw [List.countP_cons, hcurblocked]
                  rfl
                · rw [if_neg hbfs] at hcurblocked ⊢
                  conv_lhs => rw [← dropLast_concat_getLastD s.stack (0, 0) hemp]
                  rw [List.countP_append, List.countP_singleton, hcurblocked]
                  rfl
              have hVt : Vcount mat4
                  ((if s.strat = Strat.bfs then s.stack.tail
                    else s.stack.dropLast) ++
                    (if s.strat = Strat.astar then sortByDist s.stop next
                      else σ s.step next)) =
                  (if s.strat = Strat.bfs then s.stack.tail
                    else s.stack.dropLast).countP (blockedAt s.mat) := by
                unfold Vcount
                rw [List.countP_append, hnext0, hrest]
                omega
              rw [hU, hVt, hVs]
              exact Prod.Lex.right _ (by omega)
            · -- fresh pop: the popped cell leaves the unblocked set
              have hmem : (cy, cx) ∈ (Finset.range s.mat.rows ×ˢ
                  Finset.range s.mat.cols).filter fun p =>
                  ¬(s.mat.data p.1 p.2 = 1 ∨ s.mat.data p.1 p.2 = 5) := by
                rw [Finset.mem_filter, Finset.mem_product]
                exact ⟨⟨Finset.mem_range.mpr hylt, Finset.mem_range.mpr hxlt⟩, hv0⟩
              have hT : ((Finset.range mat4.rows ×ˢ Finset.range mat4.cols).filter
                  fun p => ¬(mat4.data p.1 p.2 = 1 ∨ mat4.data p.1 p.2 = 5)) =
                  ((Finset.range s.mat.rows ×ˢ Finset.range s.mat.cols).filter
                    fun p => ¬(s.mat.data p.1 p.2 = 1 ∨
                      s.mat.data p.1 p.2 = 5)).erase (cy, cx) := by
                rw [hrows4, hcols4]
                ext q
                rw [Finset.mem_erase, Finset.mem_filter, Finset.mem_filter]
                constructor
                · intro ⟨hq1, hq2⟩
                  have hne : q ≠ (cy, cx) := by
                    intro hco
                    rw [hco] at hq2
                    rw [hd4 cy cx] at hq2
                    unfold Mat.upd at hq2
                    simp at hq2
                  refine ⟨hne, hq1, ?_⟩
                  rw [hd4 q.1 q.2] at hq2
                  unfold Mat.upd at hq2
                  dsimp only at hq2
                  by_cases h1 : q.1 = cy <;> by_cases h2 : q.2 = cx
                  · exact absurd (Prod.ext h1 h2) hne
                  · rw [if_pos h1, if_neg h2] at hq2
                    exact hq2
                  · rw [if_neg h1] at hq2
                    exact hq2
                  · rw [if_neg h1] at hq2
                    exact hq2
                · intro ⟨hne, hq1, hq2⟩
                  refine ⟨hq1, ?_⟩
                  rw [hd4 q.1 q.2]
                  unfold Mat.upd
                  dsimp only
                  by_cases h1 : q.1 = cy <;> by_cases h2 : q.2 = cx
                  · exact absurd (Prod.ext h1 h2) hne
                  · rw [if_pos h1, if_neg h2]
                    exact hq2
                  · rw [if_neg h1]
                    exact hq2
                  · rw [if_neg h1]
                    exact hq2
              have hlt : Ucount mat4 < Ucount s.mat := by
                unfold Ucount
                rw [hT, Finset.card_erase_of_mem hmem]
                have hpos : 0 < ((Finset.range s.mat.rows ×ˢ
                    Finset.range s.mat.cols).filter fun p =>
                    ¬(s.mat.data p.1 p.2 = 1 ∨ s.mat.data p.1 p.2 = 5)).card :=
                  Finset.card_pos.mpr ⟨(cy, cx), hmem⟩
                omega
              exact Prod.Lex.left _ _ hlt

/-- CLAIM C6 (amended): the solve exploration loop never runs forever:
for every starting state and every strategy, after finitely many
iterations the loop is over — End was popped, the frontier emptied, or
a grid access raised an index error (the error outcome the original
claim omits, exhibited by the counterexample). The shuffle oracle may
reorder the discovered neighbours arbitrarily at every step. -/
theorem c6_amended_termination (σ : ℕ → List (ℤ × ℤ) → List (ℤ × ℤ))
    (hσ : ∀ k l, (σ k l).Perm l) (s : SState) :
    ∃ n, (iterateN σ n s).isTerm = true := by
  have wf : WellFounded (Prod.Lex ((· < ·) : ℕ → ℕ → Prop)
      ((· < ·) : ℕ → ℕ → Prop)) :=
    WellFounded.prod_lex wellFounded_lt wellFounded_lt
  have H : ∀ m : ℕ × ℕ, ∀ t : SState, solveMeasure t = m →
      ∃ n, (iterateN σ n t).isTerm = true := by
    intro m
    refine wf.induction (C := fun m => ∀ t : SState, solveMeasure t = m →
      ∃ n, (iterateN σ n t).isTerm = true) m ?_
    intro m ih t hm
    subst hm
    rcases hstep : solveStep σ t with t' | ⟨o, t'⟩
    · have hlt := solveStep_measure σ hσ hstep
      rcases ih _ hlt t' rfl with ⟨n, hn⟩
      refine ⟨n + 1, ?_⟩
      have heq : iterateN σ (n + 1) t = iterateN σ n t' := by
        show (match solveStep σ t with
          | StepRes.run u => iterateN σ n u
          | u => u) = iterateN σ n t'
        rw [hstep]
      rw [heq]
      exact hn
    · refine ⟨1, ?_⟩
      have heq : iterateN σ 1 t = StepRes.term o t' := by
        show (match solveStep σ t with
          | StepRes.run u => iterateN σ 0 u
          | u => u) = StepRes.term o t'
        rw [hstep]
      rw [heq]
      rfl
  exact H (solveMeasure s) s rfl

/-- Witness: the termination theorem applied at the identity shuffle
and the concrete solver state of the four-by-four maze. -/
theorem c6_witness : ∃ n, (iterateN idShuffle n c5state).isTerm = true :=
  c6_amended_termination idShuffle (fun _ _ => List.Perm.refl _) c5state

/-- CLAIM C3 (counterexample): the colour mapping is not injective: the
`End` and `Current` states share the colour `[0, 255, 255]`, refuting
the claim that no two distinct states share a colour. -/
theorem c3_color_clash :
    Cell.stop.color = Cell.current.color ∧ Cell.stop ≠ Cell.current := by
  decide

/-- CLAIM C3 (amended): the state-to-character mapping is injective,
and the state-to-colour mapping is injective except for the single
clash between `End` and `Current`, which share `[0, 255, 255]`. -/
theorem c3_char_injective_color_almost :
    (∀ a b : Cell, a.char = b.char → a = b) ∧
    (∀ a b : Cell, a.color = b.color →
      a = b ∨ (a = Cell.stop ∧ b = Cell.current) ∨
        (a = Cell.current ∧ b = Cell.stop)) := by
  decide

/-- CLAIM C3 (witness): the amended theorem applied at the concrete
states `Wall` and `Wall`. -/
theorem c3_witness : Cell.wall = Cell.wall :=
  c3_char_injective_color_almost.1 Cell.wall Cell.wall rfl

/-- Every element of a piece of a predicate split occurs in the split
list. -/
theorem mem_of_mem_splitOnP {α : Type} [DecidableEq α] (p : α → Bool) :
    ∀ (s piece : List α), piece ∈ s.splitOnP p → ∀ c ∈ piece, c ∈ s := by
  intro s
  induction s with
  | nil =>
    intro piece hp c hc
    rw [List.splitOnP_nil] at hp
    rcases List.mem_singleton.mp hp with rfl
    cases hc
  | cons a s ih =>
    intro piece hp c hc
    rw [List.splitOnP_cons] at hp
    by_cases ha : p a
    · rw [if_pos ha] at hp
      rcases List.mem_cons.mp hp with rfl | hp
      · cases hc
      · exact List.mem_cons_of_mem a (ih piece hp c hc)
    · rw [if_neg ha] at hp
      rcases hsp : s.splitOnP p with _ | ⟨h1, t1⟩
      · exact absurd hsp (List.splitOnP_ne_nil p s)
      · rw [hsp, List.modifyHead_cons] at hp
        rcases List.mem_cons.mp hp with rfl | hp
        · rcases List.mem_cons.mp hc with rfl | hc
          · exact List.mem_cons_self c s
          · refine List.mem_cons_of_mem a (ih h1 ?_ c hc)
            rw [hsp]
            exact List.mem_cons_self h1 t1
        · refine List.mem_cons_of_mem a (ih piece ?_ c hc)
          rw [hsp]
          exact List.mem_cons_of_mem h1 hp

/-- Every character of a line of a maze text occurs in the text. -/
theorem mem_of_mem_splitOn {s piece : List Char} {sep : Char}
    (hp : piece ∈ s.splitOn sep) {c : Char} (hc : c ∈ piece) : c ∈ s :=
  mem_of_mem_splitOnP _ s piece (by simpa [List.splitOn] using hp) c hc

/-- A property preserved by every step of a fallible fold holds for a
successful result. -/
theorem foldlM_option_inv {α β : Type} (P : β → Prop)
    (f : β → α → Option β) :
    ∀ (l : List α) (b : β), P b →
      (∀ b' a, a ∈ l → P b' → ∀ b'', f b' a = some b'' → P b'') →
      ∀ r, l.foldlM f b = some r → P r := by
  intro l
  induction l with
  | nil =>
    intro b hb _ r hr
    replace hr : some b = some r := hr
    cases hr
    exact hb
  | cons a l ih =>
    intro b hb hstep r hr
    replace hr : (f b a >>= fun b' => l.foldlM f b') = some r := hr
    rcases hf : f b a with _ | b' <;> rw [hf] at hr
    · cases hr
    · exact ih b' (hstep b a (List.mem_cons_self a l) hb b' hf)
        (fun b'' a' ha' => hstep b'' a' (List.mem_cons_of_mem a ha')) r hr

/-- The only character the parser maps to the Start code is `&`. -/
theorem valOfChar_eq_start {c : Char} (h : valOfChar c = some 2) :
    c = '&' := by
  unfold valOfChar at h
  rcases hf : codes.find? fun e => e.2.1 = c with _ | e <;> rw [hf] at h
  · cases h
  · have he : e ∈ codes := List.mem_of_find?_eq_some hf
    have hc : e.2.1 = c := by simpa using List.find?_some hf
    have h1 : e.1 = 2 := by simpa using h
    rw [codes_eq_source] at he
    fin_cases he <;> first | exact hc.symm | simp_all

/-- The only character the parser maps to the End code is `!`. -/
theorem valOfChar_eq_end {c : Char} (h : valOfChar c = some 3) :
    c = '!' := by
  unfold valOfChar at h
  rcases hf : codes.find? fun e => e.2.1 = c with _ | e <;> rw [hf] at h
  · cases h
  · have he : e ∈ codes := List.mem_of_find?_eq_some hf
    have hc : e.2.1 = c := by simpa using List.find?_some hf
    have h1 : e.1 = 3 := by simpa using h
    rw [codes_eq_source] at he
    fin_cases he <;> first | exact hc.symm | simp_all

/-- A nonzero code no character of the text maps to never appears in
the parsed grid: the grid starts all-zero and every write stores the
code of a character of the text. -/
theorem string_to_array_noVal {maze : List Char} {v : ℕ} (hv : v ≠ 0)
    (hch : ∀ c ∈ maze, valOfChar c ≠ some v) {mat : Mat}
    (h : string_to_array_maze maze = some mat) :
    ∀ y x, mat.data y x ≠ v := by
  unfold string_to_array_maze at h
  refine foldlM_option_inv (fun m => ∀ y x, m.data y x ≠ v) _ _ _
    (fun y x => Ne.symm hv) ?_ mat h
  intro m' a ha hm' m'' hput
  have ha2 : a.2 ∈ maze.splitOn '\n' := by
    have hmap := List.enum_map_snd (maze.splitOn '\n')
    rw [← hmap]
    exact List.mem_map_of_mem Prod.snd ha
  have hchars : ∀ c ∈ a.2, valOfChar c ≠ some v := fun c hc =>
    hch c (mem_of_mem_splitOn ha2 hc)
  unfold parsePutLine at hput
  refine foldlM_option_inv (fun m => ∀ y x, m.data y x ≠ v) _ _ _
    hm' ?_ m'' hput
  intro mm q hq hmm mm' hpc
  have hq2 : q.2 ∈ a.2 := by
    have hmap := List.enum_map_snd a.2
    rw [← hmap]
    exact List.mem_map_of_mem Prod.snd hq
  unfold parsePutChar at hpc
  rcases hvc : valOfChar q.2 with _ | w <;> rw [hvc] at hpc
  · cases hpc
    exact hmm
  · have hw : w ≠ v := fun he => hchars q.2 hq2 (he ▸ hvc)
    split_ifs at hpc with hb
    · cases hpc
      intro y x
      unfold Mat.upd
      dsimp only
      by_cases h1 : y = a.1 <;> by_cases h2 : x = q.1 <;>
        simp [h1, h2, hw, hmm]

/-- A code absent from every cell is never found. -/
theorem findVal_eq_none {m : Mat} {v : ℕ} (h : ∀ y x, m.data y x ≠ v) :
    m.findVal v = none := by
  unfold Mat.findVal
  have hnil : ((List.range m.rows).flatMap fun y =>
      (List.range m.cols).filterMap fun x =>
        if m.data y x = v then some (y, x) else none) = [] := by
    rw [List.eq_nil_iff_forall_not_mem]
    intro q hq
    rw [List.mem_flatMap] at hq
    obtain ⟨y, _, hq⟩ := hq
    rw [List.mem_filterMap] at hq
    obtain ⟨x, _, hxx⟩ := hq
    rw [if_neg (h y x)] at hxx
    cases hxx
  rw [hnil]
  rfl

/-- CLAIM C5 (amended): the parser silently ignores characters outside
the vocabulary (no `MalformedMaze` error exists in the code); what the
setup phase of `solve` does guarantee is that a maze text with no
Start character, or no End character, makes `solve` raise before any
exploration step runs — the parse can raise on an overlong line, and
otherwise the empty-index lookup of the missing cell raises
`IndexError`. -/
theorem c5_amended (maze : List Char) (strat : Strat)
    (h : '&' ∉ maze ∨ '!' ∉ maze) :
    ∃ e, solveInit maze strat = Except.error e := by
  unfold solveInit
  rcases hp : string_to_array_maze maze with _ | mat
  · exact ⟨.parseFail, rfl⟩
  · dsimp only
    rcases h with h | h
    · have hno : ∀ y x, mat.data y x ≠ 2 :=
        string_to_array_noVal (by decide)
          (fun c hc hv => h (valOfChar_eq_start hv ▸ hc)) hp
      rw [findVal_eq_none hno]
      exact ⟨.noStart, rfl⟩
    · have hno : ∀ y x, mat.data y x ≠ 3 :=
        string_to_array_noVal (by decide)
          (fun c hc hv => h (valOfChar_eq_end hv ▸ hc)) hp
      rcases hs : mat.findVal 2 with _ | st
      · exact ⟨.noStart, rfl⟩
      · dsimp only
        rw [findVal_eq_none hno]
        exact ⟨.noEnd, rfl⟩

/-- Witness: a maze text consisting of a single Path character has no
Start character, and its setup fails. -/
theorem c5_amended_witness :
    ('&' ∉ ([' '] : List Char) ∨ '!' ∉ ([' '] : List Char)) ∧
    ∃ e, solveInit [' '] Strat.dfs = Except.error e :=
  ⟨Or.inl (by decide), c5_amended [' '] Strat.dfs (Or.inl (by decide))⟩

/-- The default head of a nonempty list is a member. -/
theorem headD_mem {α : Type} {l : List α} (d : α) (h : l ≠ []) :
    l.headD d ∈ l := by
  cases l with
  | nil => exact absurd rfl h
  | cons a l => exact List.mem_cons_self a l

/-- The default last element of a nonempty list is a member. -/
theorem getLastD_mem {α : Type} {l : List α} (d : α) (h : l ≠ []) :
    l.getLastD d ∈ l := by
  have hin : l.getLastD d ∈ l.dropLast ++ [l.getLastD d] :=
    List.mem_append_right _ (List.mem_singleton.mpr rfl)
  rwa [dropLast_concat_getLastD l d h] at hin

/-- A found cell is in range and holds the sought code. -/
theorem findVal_some {m : Mat} {v : ℕ} {p : ℕ × ℕ}
    (h : m.findVal v = some p) :
    p.1 < m.rows ∧ p.2 < m.cols ∧ m.data p.1 p.2 = v := by
  unfold Mat.findVal at h
  rcases hl : ((List.range m.rows).flatMap fun y =>
      (List.range m.cols).filterMap fun x =>
        if m.data y x = v then some (y, x) else none) with _ | ⟨q, rest⟩ <;>
    rw [hl] at h
  · cases h
  · replace h : some q = some p := h
    cases h
    have hq : p ∈ (List.range m.rows).flatMap fun y =>
        (List.range m.cols).filterMap fun x =>
          if m.data y x = v then some (y, x) else none := by
      rw [hl]
      exact List.mem_cons_self p rest
    rw [List.mem_flatMap] at hq
    obtain ⟨y, hy, hq⟩ := hq
    rw [List.mem_filterMap] at hq
    obtain ⟨x, hx, hxx⟩ := hq
    split_ifs at hxx with hd
    cases hxx
    exact ⟨List.mem_range.mp hy, List.mem_range.mp hx, hd⟩

/-- In an interior-invariant state the popped cell sits strictly inside
the grid, the border stays Wall after the Visited write, and every
neighbour a scan returns sits strictly inside as well (a neighbour on
the border holds Wall and is filtered out). -/
theorem interior_step {s : SState} {c : ℤ × ℤ} {mat4 : Mat} {cy cx : ℕ}
    {next : List (ℤ × ℤ)} (hs : InteriorInv s)
    (hcb : 1 ≤ c.1 ∧ c.1 ≤ (s.mat.rows : ℤ) - 2 ∧
      1 ≤ c.2 ∧ c.2 ≤ (s.mat.cols : ℤ) - 2)
    (hpy : pyIdx s.mat.rows c.1 = some cy)
    (hpx : pyIdx s.mat.cols c.2 = some cx)
    (hd4 : ∀ y x, mat4.data y x = (s.mat.upd cy cx 5).data y x)
    (hrows4 : mat4.rows = s.mat.rows) (hcols4 : mat4.cols = s.mat.cols)
    (hsc : scanNbrs mat4 c.1 c.2 = some next) :
    borderWall mat4 ∧ ∀ p ∈ next, 1 ≤ p.1 ∧ p.1 ≤ (mat4.rows : ℤ) - 2 ∧
      1 ≤ p.2 ∧ p.2 ≤ (mat4.cols : ℤ) - 2 := by
  obtain ⟨hB, _⟩ := hs
  obtain ⟨hc1, hc2, hc3, hc4⟩ := hcb
  have hcy : (cy : ℤ) = c.1 := by
    rw [pyIdx_of_nonneg (by omega) (by omega)] at hpy
    cases hpy
    omega
  have hcx : (cx : ℤ) = c.2 := by
    rw [pyIdx_of_nonneg (by omega) (by omega)] at hpx
    cases hpx
    omega
  have hBW : borderWall mat4 := by
    intro y hy x hx hb
    rw [Finset.mem_range, hrows4] at hy
    rw [Finset.mem_range, hcols4] at hx
    rw [hrows4, hcols4] at hb
    rw [hd4 y x]
    unfold Mat.upd
    dsimp only
    by_cases h1 : y = cy
    · by_cases h2 : x = cx
      · exfalso
        subst h1 h2
        omega
      · rw [if_pos h1, if_neg h2]
        exact hB y (Finset.mem_range.mpr hy) x (Finset.mem_range.mpr hx) hb
    · rw [if_neg h1]
      exact hB y (Finset.mem_range.mpr hy) x (Finset.mem_range.mpr hx) hb
  refine ⟨hBW, ?_⟩
  intro p hp
  obtain ⟨⟨v, hv, hnb⟩, hcand⟩ := scanNbrs_mem hsc p hp
  have hpb : (p.1 = c.1 - 1 ∧ p.2 = c.2) ∨ (p.1 = c.1 ∧ p.2 = c.2 - 1) ∨
      (p.1 = c.1 + 1 ∧ p.2 = c.2) ∨ (p.1 = c.1 ∧ p.2 = c.2 + 1) := by
    simpa [Prod.ext_iff] using hcand
  have hb1 : 0 ≤ p.1 ∧ p.1 ≤ (s.mat.rows : ℤ) - 1 := by omega
  have hb2 : 0 ≤ p.2 ∧ p.2 ≤ (s.mat.cols : ℤ) - 1 := by omega
  have hry : pyIdx mat4.rows p.1 = some p.1.toNat := by
    rw [hrows4]
    exact pyIdx_of_nonneg hb1.1 (by omega)
  have hrx : pyIdx mat4.cols p.2 = some p.2.toNat := by
    rw [hcols4]
    exact pyIdx_of_nonneg hb2.1 (by omega)
  have hv' : v = mat4.data p.1.toNat p.2.toNat := by
    unfold Mat.readPy at hv
    rw [hry, hrx] at hv
    exact (Option.some.inj hv).symm
  have hnotb : ¬(p.1.toNat = 0 ∨ p.1.toNat = s.mat.rows - 1 ∨
      p.2.toNat = 0 ∨ p.2.toNat = s.mat.cols - 1) := by
    intro hbd
    have hne : ¬(p.1.toNat = cy ∧ p.2.toNat = cx) := by omega
    have hdata : mat4.data p.1.toNat p.2.toNat =
        s.mat.data p.1.toNat p.2.toNat := by
      rw [hd4]
      unfold Mat.upd
      dsimp only
      by_cases e1 : p.1.toNat = cy
      · by_cases e2 : p.2.toNat = cx
        · exact absurd ⟨e1, e2⟩ hne
        · rw [if_pos e1, if_neg e2]
      · rw [if_neg e1]
    have hwall : s.mat.data p.1.toNat p.2.toNat = 1 :=
      hB p.1.toNat (Finset.mem_range.mpr (by omega))
        p.2.toNat (Finset.mem_range.mpr (by omega)) hbd
    exact hnb (Or.inl (by rw [hv', hdata, hwall]))
  rw [hrows4, hcols4]
  omega

/-- One continuing iteration of the solve loop preserves the interior
invariant: the popped cell is interior, so the Visited write leaves
the border intact, and every pushed neighbour is interior. -/
theorem solveStep_inv (σ : ℕ → List (ℤ × ℤ) → List (ℤ × ℤ))
    (hσ : ∀ k l, (σ k l).Perm l) {s t : SState}
    (hs : InteriorInv s) (h : solveStep σ s = .run t) : InteriorInv t := by
  unfold solveStep at h
  by_cases hemp : s.stack = []
  · rw [if_pos hemp] at h
    cases h
  · rw [if_neg hemp] at h
    dsimp only at h
    rcases hw1 : Mat.writePy s.mat
      (if s.strat = Strat.bfs then s.stack.headD (0, 0)
        else s.stack.getLastD (0, 0)) 7 with _ | mat1 <;> rw [hw1] at h
    · cases h
    · dsimp only at h
      by_cases hend : (if s.strat = Strat.bfs then s.stack.headD (0, 0)
          else s.stack.getLastD (0, 0)) = s.stop
      · rw [if_pos hend] at h
        rcases hw2 : Mat.writePy mat1 s.start 2 with _ | mat2 <;> rw [hw2] at h
        · cases h
        · dsimp only at h
          rcases hw3 : mat2.writePy (if s.strat = Strat.bfs
              then s.stack.headD (0, 0) else s.stack.getLastD (0, 0)) 3
              with _ | mat3 <;> rw [hw3] at h
          · cases h
          · cases h
      · rw [if_neg hend] at h
        rcases hw4 : Mat.writePy mat1 (if s.strat = Strat.bfs
            then s.stack.headD (0, 0) else s.stack.getLastD (0, 0)) 5
            with _ | mat4 <;> rw [hw4] at h
        · cases h
        · dsimp only at h
          rcases hsc : scanNbrs mat4 (if s.strat = Strat.bfs
              then s.stack.headD (0, 0) else s.stack.getLastD (0, 0)).1
              (if s.strat = Strat.bfs then s.stack.headD (0, 0)
                else s.stack.getLastD (0, 0)).2 with _ | next <;> rw [hsc] at h
          · cases h
          · cases h
            have hcmem : (if s.strat = Strat.bfs then s.stack.headD (0, 0)
                else s.stack.getLastD (0, 0)) ∈ s.stack := by
              by_cases hbfs : s.strat = Strat.bfs
              · rw [if_pos hbfs]
                exact headD_mem (0, 0) hemp
              · rw [if_neg hbfs]
                exact getLastD_mem (0, 0) hemp
            have hcb := hs.2 _ hcmem
            rcases writePy_eq hw1 with ⟨cy, cx, hpy, hpx, hm1, hylt, hxlt⟩
            rcases writePy_eq hw4 with ⟨cy', cx', hpy', hpx', hm4, _, _⟩
            rw [hm1, Mat.upd_rows] at hpy'
            rw [hm1, Mat.upd_cols] at hpx'
            have hcy : cy = cy' := Option.some.inj (hpy.symm.trans hpy')
            have hcx : cx = cx' := Option.some.inj (hpx.symm.trans hpx')
            subst hcy hcx
            rw [hm1] at hm4
            have hd4 : ∀ y x, mat4.data y x = (s.mat.upd cy cx 5).data y x := by
              intro y x
              rw [hm4]
              exact double_upd_data s.mat cy cx y x
            have hrows4 : mat4.rows = s.mat.rows := by rw [hm4]; rfl
            have hcols4 : mat4.cols = s.mat.cols := by rw [hm4]; rfl
            obtain ⟨hBW, hnbr⟩ :=
              interior_step hs hcb hpy hpx hd4 hrows4 hcols4 hsc
            refine ⟨hBW, ?_⟩
            intro p hp
            replace hp : p ∈ (if s.strat = Strat.bfs then s.stack.tail
                else s.stack.dropLast) ++
                (if s.strat = Strat.astar then sortByDist s.stop next
                  else σ s.step next) := hp
            rcases List.mem_append.mp hp with hp | hp
            · have hmem : p ∈ s.stack := by
                by_cases hbfs : s.strat = Strat.bfs
                · rw [if_pos hbfs] at hp
                  exact List.tail_subset s.stack hp
                · rw [if_neg hbfs] at hp
                  exact List.dropLast_subset s.stack hp
              have := hs.2 p hmem
              rw [hrows4, hcols4]
              exact this
            · have hmemn : p ∈ next := by
                by_cases ha : s.strat = Strat.astar
                · rw [if_pos ha] at hp
                  exact (List.perm_insertionSort _ next).mem_iff.mp hp
                · rw [if_neg ha] at hp
                  exact (hσ s.step next).mem_iff.mp hp
              exact hnbr p hmemn

/-- CLAIM C9: starting from a successful setup on a maze whose parsed
grid has an all-Wall border, every grid access the solve loop performs
— the popped cell and its four prospective neighbours, at every
iteration still running — uses a row index in `[0, rows)` and a column
index in `[0, cols)`: nothing reads or writes out of bounds and no
index wraps around negatively. -/
theorem c9_solve_in_bounds (σ : ℕ → List (ℤ × ℤ) → List (ℤ × ℤ))
    (hσ : ∀ k l, (σ k l).Perm l) (maze : List Char) (strat : Strat)
    (s0 : SState) (hinit : solveInit maze strat = Except.ok s0)
    (hborder : borderWall s0.mat) (n : ℕ) (t : SState)
    (ht : iterateN σ n s0 = StepRes.run t) (hne : t.stack ≠ []) :
    ∀ p ∈ stepAccesses t, 0 ≤ p.1 ∧ p.1 < (t.mat.rows : ℤ) ∧
      0 ≤ p.2 ∧ p.2 < (t.mat.cols : ℤ) := by
  have h0 : InteriorInv s0 := by
    unfold solveInit at hinit
    rcases hp : string_to_array_maze maze with _ | mat <;> rw [hp] at hinit
    · cases hinit
    · dsimp only at hinit
      rcases hst : mat.findVal 2 with _ | st <;> rw [hst] at hinit
      · cases hinit
      · dsimp only at hinit
        rcases hen : mat.findVal 3 with _ | en <;> rw [hen] at hinit
        · cases hinit
        · cases hinit
          obtain ⟨hst1, hst2, hst3⟩ := findVal_some hst
          dsimp only at hborder
          refine ⟨hborder, ?_⟩
          intro p hp
          rcases List.mem_singleton.mp hp with rfl
          have hnb : ¬(st.1 = 0 ∨ st.1 = mat.rows - 1 ∨
              st.2 = 0 ∨ st.2 = mat.cols - 1) := by
            intro hb
            have := hborder st.1 (Finset.mem_range.mpr hst1)
              st.2 (Finset.mem_range.mpr hst2) hb
            omega
          dsimp only
          omega
  have hinv : ∀ (k : ℕ) (u w : SState), InteriorInv u →
      iterateN σ k u = StepRes.run w → InteriorInv w := by
    intro k
    induction k with
    | zero =>
      intro u w hu huw
      cases huw
      exact hu
    | succ k ih =>
      intro u w hu huw
      replace huw : (match solveStep σ u with
        | StepRes.run u' => iterateN σ k u'
        | r => r) = StepRes.run w := huw
      rcases hstep : solveStep σ u with u' | ⟨o, u'⟩ <;> rw [hstep] at huw
      · exact ih u' w (solveStep_inv σ hσ hu hstep) huw
      · cases huw
  have hI := hinv n s0 t h0 ht
  have hcmem : (if t.strat = Strat.bfs then t.stack.headD (0, 0)
      else t.stack.getLastD (0, 0)) ∈ t.stack := by
    by_cases hbfs : t.strat = Strat.bfs
    · rw [if_pos hbfs]
      exact headD_mem (0, 0) hne
    · rw [if_neg hbfs]
      exact getLastD_mem (0, 0) hne
  have hcb := hI.2 _ hcmem
  intro p hp
  replace hp : p ∈ [(if t.strat = Strat.bfs then t.stack.headD (0, 0)
      else t.stack.getLastD (0, 0)),
    ((if t.strat = Strat.bfs then t.stack.headD (0, 0)
      else t.stack.getLastD (0, 0)).1 - 1,
     (if t.strat = Strat.bfs then t.stack.headD (0, 0)
      else t.stack.getLastD (0, 0)).2),
    ((if t.strat = Strat.bfs then t.stack.headD (0, 0)
      else t.stack.getLastD (0, 0)).1,
     (if t.strat = Strat.bfs then t.stack.headD (0, 0)
      else t.stack.getLastD (0, 0)).2 - 1),
    ((if t.strat = Strat.bfs then t.stack.headD (0, 0)
      else t.stack.getLastD (0, 0)).1 + 1,
     (if t.strat = Strat.bfs then t.stack.headD (0, 0)
      else t.stack.getLastD (0, 0)).2),
    ((if t.strat = Strat.bfs then t.stack.headD (0, 0)
      else t.stack.getLastD (0, 0)).1,
     (if t.strat = Strat.bfs then t.stack.headD (0, 0)
      else t.stack.getLastD (0, 0)).2 + 1)] := hp
  simp only [List.mem_cons, List.not_mem_nil, or_false, Prod.ext_iff] at hp
  omega

set_option maxHeartbeats 1000000 in
/-- Witness: the bounds theorem applied to the concrete bordered maze
at the initial iteration. -/
theorem c9_witness :
    solveInit w9maze Strat.dfs = Except.ok w9state ∧
    borderWall w9state.mat ∧ w9state.stack ≠ [] ∧
    ∀ p ∈ stepAccesses w9state, 0 ≤ p.1 ∧ p.1 < (w9state.mat.rows : ℤ) ∧
      0 ≤ p.2 ∧ p.2 < (w9state.mat.cols : ℤ) :=
  ⟨rfl, by decide, by decide,
    c9_solve_in_bounds idShuffle (fun _ _ => List.Perm.refl _) w9maze
      Strat.dfs w9state rfl (by decide) 0 w9state rfl (by decide)⟩

end MazeRunner
